import Mathlib

/-!
Shallow embedding of the Balancer incremental event synchronization engine
(`rotkehlchen/chain/ethereum/modules/balancer/balancer.py`), with theorems
settling the frozen claims about it.

Machine-level conventions of the embedding:
* Ethereum addresses, transaction hashes and timestamps are `Nat`.
* `FVal` / `AssetAmount` / `Price` (arbitrary-precision decimals) are `Rat`.
* Remote collaborators (the graph transport, the price oracle, the DB) are
  passed in as explicit parameters or modelled as explicit state.
-/

namespace BalancerSpec

/-- Ethereum address, modelled as a natural number. -/
abbrev Addr := Nat

/-- Transaction hash, modelled as a natural number. -/
abbrev TxHash := Nat

/-- Token (contract) address, modelled as a natural number. -/
abbrev TokenAddr := Nat

/-- Unix timestamp, modelled as a natural number. -/
abbrev Timestamp := Nat

/-- Modelled from the spec: the MINT/BURN tag of a pool-token event
(`BalancerBPTEventType` lives in the module's `types.py`, absent from src). -/
inductive BPTType where
  | mint
  | burn
deriving DecidableEq, Repr

/-- Modelled from the spec: the ADD/REMOVE tag of an investment event
(`BalancerInvestEventType` lives in the module's `types.py`, absent from src). -/
inductive InvestType where
  | addLiquidity
  | removeLiquidity
deriving DecidableEq, Repr

/-- Modelled from the spec: a Balancer pool token together with the addresses of
its underlying tokens (`EvmToken` with `underlying_tokens`; the token registry
is an external collaborator, weights are unused by the verified operations). -/
structure PoolTok where
  address : TokenAddr
  underlying_tokens : List TokenAddr
deriving DecidableEq, Repr

/-- Modelled from the spec: an investment (add/remove liquidity) event
(`BalancerInvestEvent` in the module's `types.py`, absent from src):
address, transaction id, log index, pool, single token address, amount,
timestamp, kind. -/
structure BalancerInvestEvent where
  tx_hash : TxHash
  log_index : Nat
  address : Addr
  timestamp : Timestamp
  event_type : InvestType
  pool_address_token : PoolTok
  token_address : TokenAddr
  amount : Rat
deriving DecidableEq, Repr

/-- Modelled from the spec: a pool-token (mint/burn) event
(`BalancerBPTEvent` in the module's `types.py`, absent from src). -/
structure BalancerBPTEvent where
  tx_hash : TxHash
  log_index : Nat
  address : Addr
  event_type : BPTType
  pool_address_token : PoolTok
  amount : Rat
deriving DecidableEq, Repr

/-- A (token) balance: amount together with its USD value
(`rotkehlchen.accounting.structures.balance.Balance`). -/
structure Balance where
  amount : Rat
  usd_value : Rat
deriving DecidableEq, Repr

/-- Modelled from the spec: the persisted composite domain event
(`BalancerEvent` in the module's `types.py`, absent from src). -/
structure BalancerEvent where
  tx_hash : TxHash
  log_index : Nat
  address : Addr
  timestamp : Timestamp
  event_type : BPTType
  pool_address_token : PoolTok
  lp_balance : Balance
  amounts : List Rat
deriving DecidableEq, Repr

/-- Modelled from the spec: one underlying-token entry of a pool balance. -/
structure TokenBalance where
  token : TokenAddr
  user_balance : Balance
deriving DecidableEq, Repr

/-- Modelled from the spec: the live balance of one address in one pool
(`BalancerPoolBalance` in the module's `types.py`, absent from src). -/
structure BalancerPoolBalance where
  pool_token : PoolTok
  underlying_tokens_balance : List TokenBalance
deriving DecidableEq, Repr

/-- Modelled from the spec: the per-pool profit/loss view returned to callers
(`BalancerPoolEventsBalance` in the module's `types.py`, absent from src). -/
structure BalancerPoolEventsBalance where
  address : Addr
  pool_address_token : PoolTok
  events : List BalancerEvent
  profit_loss_amounts : List Rat
  usd_profit_loss : Rat
deriving DecidableEq, Repr

/-- Modelled from the spec: `POOL_MAX_NUMBER_TOKENS` from the module's
`types.py` (absent from src): the fixed width of the zero-padded
profit/loss accumulator vectors. -/
def POOL_MAX_NUMBER_TOKENS : Nat := 8

/-! ### `_calculate_pool_events_balances` -/

/-- The operator chosen at line 150 of `balancer.py`:
`operator = sub if event.event_type == BalancerBPTEventType.MINT else add`. -/
def calcOp (t : BPTType) (x y : Rat) : Rat :=
  if t = BPTType.mint then x - y else x + y

/-- Zero-pad an amounts vector on the right up to `POOL_MAX_NUMBER_TOKENS`
(line 152: `event.amounts + [AssetAmount(ZERO)] * (POOL_MAX_NUMBER_TOKENS - len(event.amounts))`). -/
def padAmounts (l : List Rat) : List Rat :=
  l ++ List.replicate (POOL_MAX_NUMBER_TOKENS - l.length) 0

/-- Position-wise addition of a (possibly shorter) delta vector into a vector,
embedding the in-place loop `profit_loss_amounts[idx] += ...` (line 163). -/
def addVec : List Rat → List Rat → List Rat
  | v, [] => v
  | [], _ => []
  | x :: v, d :: ds => (x + d) :: addVec v ds

/-- The mutable dictionary state threaded through
`_calculate_pool_events_balances`: the `pool_addr_to_events`,
`pool_addr_to_profit_loss_amounts` and `pool_addr_to_usd_value` defaultdicts.
`pools` records the key-insertion order of `pool_addr_to_events` (Python dicts
iterate in insertion order). -/
structure CalcState where
  pools : List PoolTok
  eventsOf : PoolTok → List BalancerEvent
  plOf : PoolTok → List Rat
  usdOf : PoolTok → Rat

/-- One iteration of the first loop of `_calculate_pool_events_balances`
(lines 148-157): append the event, apply `operator` position-wise to the
profit/loss vector against the zero-padded event amounts, and apply it to the
accumulated USD value against the event's LP-balance USD value. -/
def calcStep (s : CalcState) (e : BalancerEvent) : CalcState :=
  let p := e.pool_address_token
  { pools := if p ∈ s.pools then s.pools else s.pools ++ [p]
    eventsOf := fun q => if q = p then s.eventsOf p ++ [e] else s.eventsOf q
    plOf := fun q =>
      if q = p then (s.plOf p).zipWith (calcOp e.event_type) (padAmounts e.amounts)
      else s.plOf q
    usdOf := fun q =>
      if q = p then calcOp e.event_type (s.usdOf p) e.lp_balance.usd_value
      else s.usdOf q }

/-- One iteration of the second loop of `_calculate_pool_events_balances`
(lines 160-164): add each live underlying-token amount into the profit/loss
vector at its index, and each live USD value into the accumulated USD value. -/
def calcBalStep (s : CalcState) (pb : BalancerPoolBalance) : CalcState :=
  let p := pb.pool_token
  { pools := s.pools
    eventsOf := s.eventsOf
    plOf := fun q =>
      if q = p then
        addVec (s.plOf p) (pb.underlying_tokens_balance.map (fun tb => tb.user_balance.amount))
      else s.plOf q
    usdOf := fun q =>
      if q = p then
        s.usdOf p + (pb.underlying_tokens_balance.map (fun tb => tb.user_balance.usd_value)).sum
      else s.usdOf q }

/-- Initial dictionary state: `pool_addr_to_events` empty with `list` factory,
`pool_addr_to_profit_loss_amounts` defaulting to `[ZERO] * POOL_MAX_NUMBER_TOKENS`,
`pool_addr_to_usd_value` defaulting to `ZERO`. -/
def calcInit : CalcState :=
  { pools := []
    eventsOf := fun _ => []
    plOf := fun _ => List.replicate POOL_MAX_NUMBER_TOKENS 0
    usdOf := fun _ => 0 }

/-- Embedding of `Balancer._calculate_pool_events_balances` (lines 132-178):
fold the events, fold the live pool balances, then emit one
`BalancerPoolEventsBalance` per pool key of `pool_addr_to_events`, truncating
the profit/loss vector to the pool's underlying-token count. -/
def calculate_pool_events_balances
    (address : Addr)
    (events : List BalancerEvent)
    (pool_balances : List BalancerPoolBalance) : List BalancerPoolEventsBalance :=
  let s1 := events.foldl calcStep calcInit
  let s2 := pool_balances.foldl calcBalStep s1
  s1.pools.map (fun p =>
    { address := address
      pool_address_token := p
      events := s2.eventsOf p
      profit_loss_amounts := (s2.plOf p).take p.underlying_tokens.length
      usd_profit_loss := s2.usdOf p })

/-! Grouped (per-pool) reformulations of `_calculate_pool_events_balances`,
used to state claim C2: one follows the claim's words (`+` for MINT, `-` for
BURN), one the code's actual signs. They differ from the embedding above in
structure (per-pool grouped folds instead of one stateful pass), so the
equality between embedding and reformulation is a genuine theorem. -/

/-- First-occurrence order of the pools of an event list (the key order of the
`pool_addr_to_events` dict). -/
def poolOrder (events : List BalancerEvent) : List PoolTok :=
  events.foldl
    (fun ps e => if e.pool_address_token ∈ ps then ps else ps ++ [e.pool_address_token]) []

/-- Per-pool profit/loss vector as a grouped fold, parametrized by the signed
accumulation operator: fold the pool's events, then fold the pool's live
balances as a terminal adjustment. -/
def groupedPl (op : BPTType → Rat → Rat → Rat) (p : PoolTok)
    (events : List BalancerEvent) (balances : List BalancerPoolBalance) : List Rat :=
  let afterEvents := (events.filter (fun e => e.pool_address_token = p)).foldl
    (fun acc e => acc.zipWith (op e.event_type) (padAmounts e.amounts))
    (List.replicate POOL_MAX_NUMBER_TOKENS 0)
  (balances.filter (fun pb => pb.pool_token = p)).foldl
    (fun acc pb => addVec acc (pb.underlying_tokens_balance.map (fun tb => tb.user_balance.amount)))
    afterEvents

/-- Per-pool USD profit/loss as a grouped fold, parametrized by the signed
accumulation operator. -/
def groupedUsd (op : BPTType → Rat → Rat → Rat) (p : PoolTok)
    (events : List BalancerEvent) (balances : List BalancerPoolBalance) : Rat :=
  let afterEvents := (events.filter (fun e => e.pool_address_token = p)).foldl
    (fun acc e => op e.event_type acc e.lp_balance.usd_value) 0
  (balances.filter (fun pb => pb.pool_token = p)).foldl
    (fun acc pb => acc + (pb.underlying_tokens_balance.map (fun tb => tb.user_balance.usd_value)).sum)
    afterEvents

/-- Per-pool-grouped form of the events-balance computation, parametrized by
the signed accumulation operator keyed on the event kind. -/
def groupedCalculate (op : BPTType → Rat → Rat → Rat)
    (address : Addr)
    (events : List BalancerEvent)
    (balances : List BalancerPoolBalance) : List BalancerPoolEventsBalance :=
  (poolOrder events).map (fun p =>
    { address := address
      pool_address_token := p
      events := events.filter (fun e => e.pool_address_token = p)
      profit_loss_amounts := (groupedPl op p events balances).take p.underlying_tokens.length
      usd_profit_loss := groupedUsd op p events balances })

/-- The accumulation operator as claim C2 words it: `+amount` for
MINT/ADD-direction events and `-amount` for BURN/REMOVE-direction events. -/
def claimOpC2 (t : BPTType) (x y : Rat) : Rat :=
  if t = BPTType.mint then x + y else x - y

/-! ### `_get_balancer_aggregated_events_data_by_event_type` -/

/-- The failure modes of the aggregation loop: `missingInvestEvents` embeds the
`RemoteError` raised at line 648 when a pool-token event has no matching
investment events; `tokenIndexNotFound` embeds the uncaught `KeyError` of the
`tokenaddr_to_index[invest_event.token_address]` lookup at line 682. -/
inductive AggError where
  | missingInvestEvents
  | tokenIndexNotFound
deriving DecidableEq, Repr

/-- The `{pool_token.address: idx for idx, pool_token in enumerate(...)}` map
(lines 653-656): later duplicates override earlier ones, so the index of the
last occurrence wins. `none` models a missing dictionary key. -/
def tokenAddrToIndex (toks : List TokenAddr) (a : TokenAddr) : Option Nat :=
  (List.range toks.length).foldl
    (fun acc i => if toks.getD i 0 = a then some i else acc) none

/-- Add `d` at position `i` of a vector (the `amounts[token_idx] += ...` update
at line 683). -/
def addAt : List Rat → Nat → Rat → List Rat
  | [], _, _ => []
  | x :: v, 0, d => (x + d) :: v
  | x :: v, i + 1, d => x :: addAt v i d

/-- The per-key lists of the `tx_hash_and_pool_addr_to_invest_events`
defaultdict (lines 630-633): the investment events whose transaction and pool
match the key, in fetched order. -/
def investsFor (invests : List BalancerInvestEvent) (tx : TxHash) (pool : PoolTok) :
    List BalancerInvestEvent :=
  invests.filter (fun e => decide (e.tx_hash = tx ∧ e.pool_address_token = pool))

/-- State of the inner accumulation loop (lines 677-700): the `amounts` vector,
the accumulated `lp_balance.usd_value`, and the `is_missing_token_price` flag. -/
structure AggAcc where
  amounts : List Rat
  usd : Rat
  missing : Bool
deriving DecidableEq, Repr

/-- The loop `for invest_event in invest_events` of lines 680-700: resolve the
token's index in the pool (a missing key aborts, as the Python `KeyError`
would), add the invest amount at that index, and — unless a previous price
lookup already came back zero — accumulate `price * amount` into the USD value,
setting the missing-price flag when the price is zero. -/
def aggFold (price : TokenAddr → Timestamp → Rat) (pool : PoolTok) :
    AggAcc → List BalancerInvestEvent → Except AggError AggAcc
  | acc, [] => .ok acc
  | acc, e :: rest =>
    match tokenAddrToIndex pool.underlying_tokens e.token_address with
    | none => .error .tokenIndexNotFound
    | some i =>
      let amounts := addAt acc.amounts i e.amount
      if acc.missing then
        aggFold price pool ⟨amounts, acc.usd, true⟩ rest
      else
        let p := price e.token_address e.timestamp
        aggFold price pool ⟨amounts, acc.usd + p * e.amount, decide (p = 0)⟩ rest

/-- The body of the `for bpt_event in ...` loop (lines 638-715): look up the
investment-event group of the pool-token event's (transaction, pool) key, fail
with the line-648 `RemoteError` when it is empty, fold the group into the
amounts vector and the LP USD value (zeroed when a price was missing, lines
702-703), and build the `BalancerEvent`, timestamped by the group's first
investment event. -/
def buildBalancerEvent (price : TokenAddr → Timestamp → Rat)
    (invests : List BalancerInvestEvent) (bpt : BalancerBPTEvent) :
    Except AggError BalancerEvent :=
  match investsFor invests bpt.tx_hash bpt.pool_address_token with
  | [] => .error .missingInvestEvents
  | g0 :: grest =>
    match aggFold price bpt.pool_address_token
        ⟨List.replicate bpt.pool_address_token.underlying_tokens.length 0, 0, false⟩
        (g0 :: grest) with
    | .error err => .error err
    | .ok acc =>
      .ok { tx_hash := bpt.tx_hash
            log_index := bpt.log_index
            address := bpt.address
            timestamp := g0.timestamp
            event_type := bpt.event_type
            pool_address_token := bpt.pool_address_token
            lp_balance := { amount := bpt.amount
                            usd_value := if acc.missing then 0 else acc.usd }
            amounts := acc.amounts }

/-- The `for bpt_event in getattr(events, attr_bpt_events)` loop of
`_get_balancer_aggregated_events_data_by_event_type` for one address's events:
build one `BalancerEvent` per pool-token event in order, aborting the whole run
on the first failure (the Python `raise`). -/
def aggregateByType (price : TokenAddr → Timestamp → Rat)
    (invests : List BalancerInvestEvent) :
    List BalancerBPTEvent → Except AggError (List BalancerEvent)
  | [] => .ok []
  | b :: bs =>
    match buildBalancerEvent price invests b with
    | .error err => .error err
    | .ok ev =>
      match aggregateByType price invests bs with
      | .error err => .error err
      | .ok evs => .ok (ev :: evs)

/-- Modelled from the spec: the four per-address event lists bundled by
`BalancerEventsData` (in the module's `types.py`, absent from src). -/
structure BalancerEventsData where
  add_liquidities : List BalancerInvestEvent
  remove_liquidities : List BalancerInvestEvent
  mints : List BalancerBPTEvent
  burns : List BalancerBPTEvent
deriving DecidableEq, Repr

/-- One `event_type` pass of `_get_balancer_aggregated_events_data` over all
addresses' event bundles (the `for events in address_to_events_data.values()`
loop at line 628), concatenating the events produced per address. -/
def aggregatePass (price : TokenAddr → Timestamp → Rat)
    (select : BalancerEventsData → List BalancerInvestEvent × List BalancerBPTEvent) :
    List (Addr × BalancerEventsData) → Except AggError (List BalancerEvent)
  | [] => .ok []
  | (_, d) :: rest =>
    match aggregateByType price (select d).1 (select d).2 with
    | .error err => .error err
    | .ok evs =>
      match aggregatePass price select rest with
      | .error err => .error err
      | .ok evs' => .ok (evs ++ evs')

/-- Embedding of `_get_balancer_aggregated_events_data` (lines 553-582): one
pass pairing MINT pool-token events with ADD_LIQUIDITY investment events,
then one pass pairing BURN with REMOVE_LIQUIDITY, all appended into a single
`balancer_events` list. -/
def aggregateAll (price : TokenAddr → Timestamp → Rat)
    (datas : List (Addr × BalancerEventsData)) : Except AggError (List BalancerEvent) :=
  match aggregatePass price (fun d => (d.add_liquidities, d.mints)) datas with
  | .error err => .error err
  | .ok mintEvs =>
    match aggregatePass price (fun d => (d.remove_liquidities, d.burns)) datas with
    | .error err => .error err
    | .ok burnEvs => .ok (mintEvs ++ burnEvs)

/-! ### Pagination (`_get_address_to_bpt_events_graph`, `_get_protocol_balance_graph`) -/

/-- Modelled from the spec: `GRAPH_QUERY_LIMIT` from
`rotkehlchen/chain/ethereum/graph.py` (absent from src) — the fixed page size
L; the spec's Scenario A fixes it at 1000. -/
def GRAPH_QUERY_LIMIT : Nat := 1000

/-- Modelled from the spec: `GRAPH_QUERY_SKIP_LIMIT` from
`rotkehlchen/chain/ethereum/graph.py` (absent from src) — the maximum safe
offset S beyond which the fetch switches to a continuation cursor. -/
def GRAPH_QUERY_SKIP_LIMIT : Nat := 5000

/-- The `$id` pagination parameter: `none` models the initial `'0'`, `some`
models the `'{tx_hash}-{log_index}'` continuation cursor. -/
abbrev QueryId := Option (TxHash × Nat)

/-- The continuation cursor derived from the last event of the current page
(line 261: `query_id = f'{bpt_event.tx_hash.hex()}-{bpt_event.log_index}'`,
where `bpt_event` is the last event deserialized from the page). -/
def bptCursor (page : List BalancerBPTEvent) : QueryId :=
  match page.getLast? with
  | some e => some (e.tx_hash, e.log_index)
  | none => none

/-- The request trace of the `while True` pagination loop of
`_get_address_to_bpt_events_graph` (lines 219-270), driven by a page oracle
mapping (`$id`, `$offset`) to the page contents: stop after a page shorter
than the limit; at the skip limit switch to the continuation cursor and reset
the offset; otherwise advance the offset by the limit. Recursion is bounded by
fuel (the Python loop does not terminate on an endless full-page stream). -/
def bptRequestTrace (pages : QueryId → Nat → List BalancerBPTEvent) :
    Nat → QueryId → Nat → List (QueryId × Nat)
  | 0, _, _ => []
  | fuel + 1, qid, off =>
    let page := pages qid off
    (qid, off) ::
      (if page.length < GRAPH_QUERY_LIMIT then []
       else if off = GRAPH_QUERY_SKIP_LIMIT then
         bptRequestTrace pages fuel (bptCursor page) 0
       else
         bptRequestTrace pages fuel qid (off + GRAPH_QUERY_LIMIT))

/-- The request trace (issued `$offset` values) of the `while True` pagination
loop of `_get_protocol_balance_graph` (lines 758-809): stop after a short
page, otherwise advance the offset by the limit — with no skip-limit check
and no continuation cursor. -/
def balanceRequestTrace (pages : Nat → List α) : Nat → Nat → List Nat
  | 0, _ => []
  | fuel + 1, off =>
    off ::
      (if (pages off).length < GRAPH_QUERY_LIMIT then []
       else balanceRequestTrace pages fuel (off + GRAPH_QUERY_LIMIT))

/-! ### Deduplication and ordering (`_get_address_to_invest_events_graph`,
`_get_address_to_bpt_events_graph`) -/

/-- Modelled from the spec: membership of an event in a Python per-address set
uses the event's uniqueness key (the event types live in the module's
`types.py`, absent from src; the spec fixes the uniqueness keys). Insertion
keeps first-insertion order, matching deterministic set accumulation. -/
def insertUnique {κ : Type} [DecidableEq κ] (key : α → κ) (s : List α) (e : α) : List α :=
  if s.any (fun x => decide (key x = key e)) then s else s ++ [e]

/-- Accumulate one page into the per-address unique-event sets
(`address_to_unique_invest_events[invest_event.address].add(invest_event)`,
line 435, and the analogous line 255 for pool-token events). -/
def accumulatePage {κ : Type} [DecidableEq κ] (key : α → κ) (addrOf : α → Addr)
    (acc : Addr → List α) (page : List α) : Addr → List α :=
  page.foldl (fun acc e => fun a => if a = addrOf e then insertUnique key (acc a) e else acc a) acc

/-- Accumulate all fetched pages into the per-address unique-event sets. -/
def accumulatePages {κ : Type} [DecidableEq κ] (key : α → κ) (addrOf : α → Addr)
    (pages : List (List α)) : Addr → List α :=
  pages.foldl (accumulatePage key addrOf) (fun _ => [])

/-- Lexicographic "less or equal" on two natural-valued sort keys, embedding
Python's tuple-key `sorted(..., key=lambda event: (event.tx_hash, event.log_index))`. -/
def lexLe (f g : α → Nat) (a b : α) : Prop :=
  f a < f b ∨ (f a = f b ∧ g a ≤ g b)

instance lexLe.decidableRel (f g : α → Nat) : DecidableRel (lexLe f g) := fun a b => by
  unfold lexLe
  exact inferInstance

instance lexLe.isTotal (f g : α → Nat) : IsTotal α (lexLe f g) :=
  ⟨by intro a b; unfold lexLe; omega⟩

instance lexLe.isTrans (f g : α → Nat) : IsTrans α (lexLe f g) :=
  ⟨by intro a b c; unfold lexLe; omega⟩

/-- The per-address output of a deduplicating fetch: the accumulated unique
events of the address, emitted in sorted order (lines 272-278 and 452-458). -/
def dedupOutput {κ : Type} [DecidableEq κ] (key : α → κ) (addrOf : α → Addr)
    (f g : α → Nat) (pages : List (List α)) (a : Addr) : List α :=
  List.insertionSort (lexLe f g) (accumulatePages key addrOf pages a)

/-- The per-address deduplicated, sorted investment events of
`_get_address_to_invest_events_graph`, as a function of the fetched pages
(uniqueness key per the spec: transaction id, log index, token address). -/
def investDedupOutput (pages : List (List BalancerInvestEvent)) (a : Addr) :
    List BalancerInvestEvent :=
  dedupOutput (fun e => (e.tx_hash, e.log_index, e.token_address)) (fun e => e.address)
    (fun e => e.tx_hash) (fun e => e.log_index) pages a

/-- The per-address deduplicated, sorted pool-token events of
`_get_address_to_bpt_events_graph`, as a function of the fetched pages
(uniqueness key per the spec: transaction id, log index). -/
def bptDedupOutput (pages : List (List BalancerBPTEvent)) (a : Addr) :
    List BalancerBPTEvent :=
  dedupOutput (fun e => (e.tx_hash, e.log_index)) (fun e => e.address)
    (fun e => e.tx_hash) (fun e => e.log_index) pages a

/-! ### Persistence and the synchronization flow
(`_get_address_to_pool_events_balances`, `_update_used_query_range`,
`get_events_history`) -/

/-- The persistent state the engine reads and writes: the per-address used
query range ledger and the persisted composite events. -/
structure DB where
  ranges : Addr → Option (Timestamp × Timestamp)
  events : List BalancerEvent

/-- Embedding of `_update_used_query_range` (lines 1055-1070) together with
the collaborator `DBHandler.update_used_query_range` (absent from src).
Modelled from the spec: `updateQueryRange` stores the pair, so each listed
address's record becomes exactly `(from_timestamp, to_timestamp)`. -/
def update_used_query_range (db : DB) (addresses : List Addr)
    (fromTs toTs : Timestamp) : DB :=
  { db with ranges := fun a => if a ∈ addresses then some (fromTs, toTs) else db.ranges a }

/-- Modelled from the spec: `readEvents(address, from, to)` of the persistence
collaborator (`get_balancer_events` in the module's `db.py`, absent from src):
the persisted events of the address whose timestamp lies in the inclusive
window. -/
def get_balancer_events (db : DB) (a : Addr) (fromTs toTs : Timestamp) :
    List BalancerEvent :=
  db.events.filter (fun e => decide (e.address = a ∧ fromTs ≤ e.timestamp ∧ e.timestamp ≤ toTs))

/-- Python's stable in-place sort by `(event.timestamp, event.log_index)`
(line 528). -/
def sortByTsLog (l : List BalancerEvent) : List BalancerEvent :=
  List.insertionSort (lexLe (fun e => e.timestamp) (fun e => e.log_index)) l

/-- The classification loop of `_get_address_to_pool_events_balances`
(lines 471-485): addresses without a used-query-range record are new, the
rest are existing, and `min_to_timestamp` is the minimum of `to_timestamp`
and the existing addresses' recorded upper bounds. -/
def splitAddresses (ranges : Addr → Option (Timestamp × Timestamp))
    (addresses : List Addr) (toTs : Timestamp) :
    List Addr × List Addr × Timestamp :=
  addresses.foldl
    (fun acc a =>
      match ranges a with
      | none => (acc.1 ++ [a], acc.2.1, acc.2.2)
      | some r => (acc.1, acc.2.1 ++ [a], min acc.2.2 r.2))
    ([], [], toTs)

/-- Embedding of `_get_address_to_events_data` (lines 280-341) after the
remote fetches succeed: the fetched per-address event bundles are given by the
oracle `fetch`, and one scoped write transaction updates the used query range
of every requested address (lines 321-328). -/
def get_address_to_events_data
    (fetch : Timestamp → Timestamp → List Addr → List (Addr × BalancerEventsData))
    (db : DB) (addresses : List Addr) (fromTs toTs : Timestamp) :
    DB × List (Addr × BalancerEventsData) :=
  (update_used_query_range db addresses fromTs toTs, fetch fromTs toTs addresses)

/-- The two conditional fetch batches of `_get_address_to_pool_events_balances`
(lines 487-504): new addresses over `[0, to_timestamp]`, then existing
addresses over `[min_to_timestamp, to_timestamp]` when
`to_timestamp > min_to_timestamp`. Returns the database after the range-ledger
transactions, the merged per-address event bundles, and the issued fetch
windows. -/
def syncBatches
    (fetch : Timestamp → Timestamp → List Addr → List (Addr × BalancerEventsData))
    (db : DB) (addresses : List Addr) (toTs : Timestamp) :
    DB × List (Addr × BalancerEventsData) × List (Timestamp × Timestamp × List Addr) :=
  let s := splitAddresses db.ranges addresses toTs
  let step1 :=
    if s.1 = [] then (db, ([] : List (Addr × BalancerEventsData)),
      ([] : List (Timestamp × Timestamp × List Addr)))
    else
      let r := get_address_to_events_data fetch db s.1 0 toTs
      (r.1, r.2, [(0, toTs, s.1)])
  if s.2.1 ≠ [] ∧ s.2.2 < toTs then
    let r := get_address_to_events_data fetch step1.1 s.2.1 s.2.2 toTs
    (r.1, step1.2.1 ++ r.2, step1.2.2 ++ [(s.2.2, toTs, s.2.1)])
  else step1

/-- The observable outcome of one synchronization call: the final database
state, whether a `RemoteError` propagated to the caller, the fetch windows
issued, and the returned per-address pool events balances. -/
structure SyncOutcome where
  db : DB
  raised : Bool
  fetchCalls : List (Timestamp × Timestamp × List Addr)
  output : List (Addr × List BalancerPoolEventsBalance)

/-- Embedding of `_get_address_to_pool_events_balances` (lines 460-551), with
the remote collaborators as oracles: `fetch` yields the per-address event
bundles of a window, `live` yields `get_balances` for an address, `price` the
historical USD prices. Classify the addresses, run the conditional fetch
batches (each committing its range-ledger update in its own scoped write
transaction), aggregate the bundles — a failure there propagates as a raised
`RemoteError` with no event insertion — then insert the produced events in a
second write transaction, read the persisted events of the window back, and
compute the per-pool balances, folding in the live pool balances only when
`from_timestamp == 0`. -/
def get_address_to_pool_events_balances
    (price : TokenAddr → Timestamp → Rat)
    (fetch : Timestamp → Timestamp → List Addr → List (Addr × BalancerEventsData))
    (live : Addr → List BalancerPoolBalance)
    (db : DB) (addresses : List Addr) (fromTs toTs : Timestamp) : SyncOutcome :=
  let b := syncBatches fetch db addresses toTs
  let db2 := b.1
  let datas := b.2.1
  let calls := b.2.2
  match (if datas = [] then Except.ok [] else aggregateAll price datas) with
  | .error _ => { db := db2, raised := true, fetchCalls := calls, output := [] }
  | .ok evs =>
    let db3 : DB := { db2 with events := db2.events ++ evs }
    let dbAddrEvents := addresses.filterMap (fun a =>
      let es := sortByTsLog (get_balancer_events db3 a fromTs toTs)
      if es = [] then none else some (a, es))
    if dbAddrEvents = [] then
      { db := db3, raised := false, fetchCalls := calls, output := [] }
    else
      let liveOf : Addr → List BalancerPoolBalance :=
        if fromTs = 0 then live else fun _ => []
      { db := db3, raised := false, fetchCalls := calls,
        output := dbAddrEvents.map
          (fun ae => (ae.1, calculate_pool_events_balances ae.1 ae.2 (liveOf ae.1))) }

/-! ### Price resolution (`_get_token_price_at_timestamp_zero_if_error`,
`_get_unknown_token_to_prices_graph`) -/

/-- A token as the price resolver sees it: its address and whether it exposes
a registered price oracle (`EvmToken.has_oracle()`). -/
structure PriceToken where
  address : TokenAddr
  hasOracle : Bool
deriving DecidableEq, Repr

/-- Modelled from the spec: `query_usd_price_or_use_default` (absent from
src) — the oracle lookup, whose remote failure propagates and whose
"unavailable" outcome falls back to the supplied default. -/
def query_usd_price_or_use_default
    (oracle : TokenAddr → Timestamp → Except Unit (Option Rat))
    (token : TokenAddr) (ts : Timestamp) (defaultValue : Rat) : Except Unit Rat :=
  match oracle token ts with
  | .error e => .error e
  | .ok none => .ok defaultValue
  | .ok (some p) => .ok p

/-- Embedding of `_get_token_price_at_timestamp_zero_if_error` (lines
818-843): tokens with an oracle go through
`query_usd_price_or_use_default(default=ZERO)`; tokens without one query only
the Uniswap day-price observation (`_get_unknown_token_to_prices_uniswap_graph`,
modelled by the `uniswapDayPrices` oracle), with `RemoteError` suppressed into
an empty price map, defaulting to `ZERO_PRICE`. -/
def get_token_price_at_timestamp_zero_if_error
    (oracle : TokenAddr → Timestamp → Except Unit (Option Rat))
    (uniswapDayPrices : TokenAddr → Timestamp → Except Unit (TokenAddr → Option Rat))
    (token : PriceToken) (ts : Timestamp) : Except Unit Rat :=
  if token.hasOracle then
    query_usd_price_or_use_default oracle token.address ts 0
  else
    let tokenToPrices : TokenAddr → Option Rat :=
      match uniswapDayPrices token.address ts with
      | .error _ => fun _ => none
      | .ok m => m
    .ok ((tokenToPrices token.address).getD 0)

/-- Embedding of `_get_unknown_token_to_prices_graph` (lines 916-950): query
the Balancer token-prices graph for all unknown tokens — its `RemoteError`
propagates — then, when the Uniswap graph is available, query it for the still
unresolved tokens, catching its `RemoteError` as an empty result; returns the
merged price map together with the tokens warned about (those with no price
from either source). -/
def get_unknown_token_to_prices_graph
    (balancerPrices : List TokenAddr → Except Unit (TokenAddr → Option Rat))
    (uniswapPrices : List TokenAddr → Except Unit (TokenAddr → Option Rat))
    (uniswapAvailable : Bool)
    (unknownTokens : List TokenAddr) :
    Except Unit ((TokenAddr → Option Rat) × List TokenAddr) :=
  match balancerPrices unknownTokens with
  | .error e => .error e
  | .ok bal =>
    let stillUnknown := unknownTokens.filter (fun t => (bal t).isNone)
    let merged : TokenAddr → Option Rat :=
      if uniswapAvailable then
        match uniswapPrices stillUnknown with
        | .error _ => bal
        | .ok uni => fun t =>
            if t ∈ stillUnknown then
              match uni t with
              | some p => some p
              | none => bal t
            else bal t
      else bal
    .ok (merged, unknownTokens.filter (fun t => (merged t).isNone))

/-- The price-resolution chain exactly as claim C9 states it: (a) the
registered oracle when the token exposes one (failure propagates, unavailable
defaults to zero); (b) the protocol's own price-observation query for tokens
without an oracle, remote failure caught as "no price from this stage";
(c) the secondary AMM's daily-price observation for the still-unresolved
case, remote failure also caught; exhaustion of all stages yields zero. -/
def claimPriceResolverC9
    (oracle : TokenAddr → Timestamp → Except Unit (Option Rat))
    (balancerPrices : TokenAddr → Timestamp → Except Unit (TokenAddr → Option Rat))
    (uniswapDayPrices : TokenAddr → Timestamp → Except Unit (TokenAddr → Option Rat))
    (token : PriceToken) (ts : Timestamp) : Except Unit Rat :=
  if token.hasOracle then
    query_usd_price_or_use_default oracle token.address ts 0
  else
    let fromBal : Option Rat :=
      match balancerPrices token.address ts with
      | .error _ => none
      | .ok m => m token.address
    match fromBal with
    | some p => .ok p
    | none =>
      let fromUni : Option Rat :=
        match uniswapDayPrices token.address ts with
        | .error _ => none
        | .ok m => m token.address
      .ok (fromUni.getD 0)

/-! ### Concrete inputs used by counterexamples and witnesses -/

/-- A pool with a single underlying token, address 7. -/
def cexPool : PoolTok := ⟨100, [7]⟩

/-- A MINT composite event of amount vector `[2]` and LP USD value 5. -/
def cexEventC2 : BalancerEvent :=
  ⟨1, 0, 5, 10, BPTType.mint, cexPool, ⟨1, 5⟩, [2]⟩

/-- A MINT pool-token event on `cexPool` with no matching investment event. -/
def cexBpt : BalancerBPTEvent := ⟨1, 0, 5, BPTType.mint, cexPool, 3⟩

/-- An ADD_LIQUIDITY investment event matching `cexBpt`'s transaction and pool. -/
def cexInvest : BalancerInvestEvent :=
  ⟨1, 1, 5, 10, InvestType.addLiquidity, cexPool, 7, 2⟩

/-- A second ADD_LIQUIDITY investment event in the same transaction and pool. -/
def cexInvest2 : BalancerInvestEvent :=
  ⟨1, 2, 5, 10, InvestType.addLiquidity, cexPool, 7, 4⟩

/-- An event bundle whose MINT pool-token event has no matching investment
event: aggregating it raises. -/
def cexBadData : BalancerEventsData := ⟨[], [], [cexBpt], []⟩

/-- A fetch oracle returning the orphaned-MINT bundle for address 5. -/
def cexFetch : Timestamp → Timestamp → List Addr → List (Addr × BalancerEventsData) :=
  fun _ _ _ => [(5, cexBadData)]

/-- An empty database: no query ranges, no events. -/
def cexDB : DB := ⟨fun _ => none, []⟩

/-- A constant unit price oracle. -/
def cexPrice : TokenAddr → Timestamp → Rat := fun _ _ => 1

/-- A token without a registered oracle, address 42. -/
def cexToken : PriceToken := ⟨42, false⟩

/-- A Balancer token-prices oracle knowing price 7 for token 42. -/
def cexBalPrices : TokenAddr → Timestamp → Except Unit (TokenAddr → Option Rat) :=
  fun _ _ => .ok (fun t => if t = 42 then some 7 else none)

/-- A Uniswap day-prices oracle knowing no prices. -/
def cexUniPrices : TokenAddr → Timestamp → Except Unit (TokenAddr → Option Rat) :=
  fun _ _ => .ok (fun _ => none)

/-- An oracle answering "price unavailable" for every token. -/
def cexOracle : TokenAddr → Timestamp → Except Unit (Option Rat) :=
  fun _ _ => .ok none

/-- A full-page oracle for the protocol-balance fetch: pages of exactly
`GRAPH_QUERY_LIMIT` items up to offset `GRAPH_QUERY_SKIP_LIMIT`, then a short
page. -/
def cexBalancePages : Nat → List Unit :=
  fun off => if off ≤ GRAPH_QUERY_SKIP_LIMIT then List.replicate GRAPH_QUERY_LIMIT () else [()]

/-- The relation between two consecutive requests of the
`_get_address_to_bpt_events_graph` pagination loop: the earlier request
returned a full page, and either its offset was below the skip limit and the
next request advances the offset by the limit under the same cursor, or its
offset sat at the skip limit and the next request carries the continuation
cursor derived from its page with offset reset to zero. -/
def bptStep (pages : QueryId → Nat → List BalancerBPTEvent) (r1 r2 : QueryId × Nat) : Prop :=
  GRAPH_QUERY_LIMIT ≤ (pages r1.1 r1.2).length ∧
  ((r1.2 ≠ GRAPH_QUERY_SKIP_LIMIT ∧ r2.1 = r1.1 ∧ r2.2 = r1.2 + GRAPH_QUERY_LIMIT) ∨
   (r1.2 = GRAPH_QUERY_SKIP_LIMIT ∧ r2.1 = bptCursor (pages r1.1 r1.2) ∧ r2.2 = 0))

/-- An event bundle whose MINT pool-token event has a matching investment
event. -/
def cexGoodData : BalancerEventsData := ⟨[cexInvest], [], [cexBpt], []⟩

/-- A fetch oracle returning the well-matched bundle for address 5. -/
def cexFetchGood : Timestamp → Timestamp → List Addr → List (Addr × BalancerEventsData) :=
  fun _ _ _ => [(5, cexGoodData)]

/-- An event bundle with an ADD_LIQUIDITY investment event whose transaction
has no pool-token event at all. -/
def cexUnmatchedInvestData : BalancerEventsData := ⟨[cexInvest], [], [], []⟩

/-- A fetch oracle returning the unmatched-investment bundle for address 5. -/
def cexFetchUnmatched : Timestamp → Timestamp → List Addr → List (Addr × BalancerEventsData) :=
  fun _ _ _ => [(5, cexUnmatchedInvestData)]

/-- A live-balances oracle giving address 5 a balance in `cexPool`. -/
def cexLive : Addr → List BalancerPoolBalance :=
  fun a => if a = 5 then [⟨cexPool, [⟨7, ⟨10, 20⟩⟩]⟩] else []

/-- A page oracle for the pool-token event fetch: a single short page. -/
def cexBptPages : QueryId → Nat → List BalancerBPTEvent := fun _ _ => [cexBpt]

/-! ## Theorems

General helper lemmas first, then, per claim, its theorem together with its
counterexample and witness where applicable. -/

theorem foldl_snoc_eq_append {α : Type} (l : List α) (init : List α) :
    l.foldl (fun acc e => acc ++ [e]) init = init ++ l := by
  induction l generalizing init with
  | nil => simp
  | cons e rest ih => simp [ih]

theorem foldl_calcStep_pools (events : List BalancerEvent) (s : CalcState) :
    (events.foldl calcStep s).pools =
      events.foldl
        (fun ps e => if e.pool_address_token ∈ ps then ps else ps ++ [e.pool_address_token])
        s.pools := by
  induction events generalizing s with
  | nil => rfl
  | cons e rest ih =>
    simp only [List.foldl_cons]
    rw [ih]
    rfl

theorem foldl_calcStep_eventsOf (events : List BalancerEvent) (s : CalcState) (p : PoolTok) :
    (events.foldl calcStep s).eventsOf p =
      (events.filter (fun e => e.pool_address_token = p)).foldl
        (fun acc e => acc ++ [e]) (s.eventsOf p) := by
  induction events generalizing s with
  | nil => rfl
  | cons e rest ih =>
    simp only [List.foldl_cons]
    rw [ih]
    by_cases h : e.pool_address_token = p
    · simp [calcStep, List.filter_cons, h]
    · have h' : ¬p = e.pool_address_token := fun hh => h hh.symm
      simp [calcStep, List.filter_cons, h, h']

theorem foldl_calcStep_plOf (events : List BalancerEvent) (s : CalcState) (p : PoolTok) :
    (events.foldl calcStep s).plOf p =
      (events.filter (fun e => e.pool_address_token = p)).foldl
        (fun acc e => acc.zipWith (calcOp e.event_type) (padAmounts e.amounts)) (s.plOf p) := by
  induction events generalizing s with
  | nil => rfl
  | cons e rest ih =>
    simp only [List.foldl_cons]
    rw [ih]
    by_cases h : e.pool_address_token = p
    · simp [calcStep, List.filter_cons, h]
    · have h' : ¬p = e.pool_address_token := fun hh => h hh.symm
      simp [calcStep, List.filter_cons, h, h']

theorem foldl_calcStep_usdOf (events : List BalancerEvent) (s : CalcState) (p : PoolTok) :
    (events.foldl calcStep s).usdOf p =
      (events.filter (fun e => e.pool_address_token = p)).foldl
        (fun acc e => calcOp e.event_type acc e.lp_balance.usd_value) (s.usdOf p) := by
  induction events generalizing s with
  | nil => rfl
  | cons e rest ih =>
    simp only [List.foldl_cons]
    rw [ih]
    by_cases h : e.pool_address_token = p
    · simp [calcStep, List.filter_cons, h]
    · have h' : ¬p = e.pool_address_token := fun hh => h hh.symm
      simp [calcStep, List.filter_cons, h, h']

theorem foldl_calcBalStep_pools (balances : List BalancerPoolBalance) (s : CalcState) :
    (balances.foldl calcBalStep s).pools = s.pools := by
  induction balances generalizing s with
  | nil => rfl
  | cons pb rest ih =>
    simp only [List.foldl_cons]
    rw [ih]
    rfl

theorem foldl_calcBalStep_eventsOf (balances : List BalancerPoolBalance) (s : CalcState)
    (p : PoolTok) :
    (balances.foldl calcBalStep s).eventsOf p = s.eventsOf p := by
  induction balances generalizing s with
  | nil => rfl
  | cons pb rest ih =>
    simp only [List.foldl_cons]
    rw [ih]
    rfl

theorem foldl_calcBalStep_plOf (balances : List BalancerPoolBalance) (s : CalcState)
    (p : PoolTok) :
    (balances.foldl calcBalStep s).plOf p =
      (balances.filter (fun pb => pb.pool_token = p)).foldl
        (fun acc pb =>
          addVec acc (pb.underlying_tokens_balance.map (fun tb => tb.user_balance.amount)))
        (s.plOf p) := by
  induction balances generalizing s with
  | nil => rfl
  | cons pb rest ih =>
    simp only [List.foldl_cons]
    rw [ih]
    by_cases h : pb.pool_token = p
    · simp [calcBalStep, List.filter_cons, h]
    · have h' : ¬p = pb.pool_token := fun hh => h hh.symm
      simp [calcBalStep, List.filter_cons, h, h']

theorem foldl_calcBalStep_usdOf (balances : List BalancerPoolBalance) (s : CalcState)
    (p : PoolTok) :
    (balances.foldl calcBalStep s).usdOf p =
      (balances.filter (fun pb => pb.pool_token = p)).foldl
        (fun acc pb =>
          acc + (pb.underlying_tokens_balance.map (fun tb => tb.user_balance.usd_value)).sum)
        (s.usdOf p) := by
  induction balances generalizing s with
  | nil => rfl
  | cons pb rest ih =>
    simp only [List.foldl_cons]
    rw [ih]
    by_cases h : pb.pool_token = p
    · simp [calcBalStep, List.filter_cons, h]
    · have h' : ¬p = pb.pool_token := fun hh => h hh.symm
      simp [calcBalStep, List.filter_cons, h, h']

/-- Claim C2, counterexample: on a single MINT composite event with amount
vector `[2]` and LP USD value 5 (and no live balances), the code's
profit/loss is `[-2]` with USD `-5`, not the `[+2]` with USD `+5` that the
claim's `+amount`-for-MINT accumulation produces: the claim's signs are the
opposite of the code's. -/
theorem C2_counterexample :
    calculate_pool_events_balances 5 [cexEventC2] [] ≠
      groupedCalculate claimOpC2 5 [cexEventC2] [] := by
  have h1 : (calculate_pool_events_balances 5 [cexEventC2] []).map
      (fun b => b.usd_profit_loss) = [0 - 5] := by
    simp [calculate_pool_events_balances, calcStep, calcInit, calcOp, cexEventC2, cexPool]
  have h2 : (groupedCalculate claimOpC2 5 [cexEventC2] []).map
      (fun b => b.usd_profit_loss) = [0 + 5] := by
    simp [groupedCalculate, groupedUsd, poolOrder, claimOpC2, cexEventC2, cexPool]
  intro h
  rw [h] at h1
  rw [h2] at h1
  have : (0 + 5 : Rat) = 0 - 5 := by
    injection h1
  norm_num at this

/-- Claim C2 (corrected): `_calculate_pool_events_balances` accumulates, per
pool and per underlying token, `-amount` for MINT events and `+amount` for
BURN events (not `+` for MINT and `-` for BURN as the claim states), then adds
the current live pool balance's per-token amounts as a terminal adjustment;
the USD profit/loss is accumulated with the same (corrected) signs from each
event's LP-balance USD value plus the live balance's USD values; each emitted
entry is truncated to the pool's underlying-token count. -/
theorem C2_signed_accumulation (a : Addr) (events : List BalancerEvent)
    (balances : List BalancerPoolBalance) :
    calculate_pool_events_balances a events balances =
      groupedCalculate calcOp a events balances := by
  simp only [calculate_pool_events_balances, groupedCalculate]
  have hpools : (events.foldl calcStep calcInit).pools = poolOrder events := by
    rw [foldl_calcStep_pools]
    rfl
  rw [hpools]
  have hfun : ∀ p : PoolTok,
      (⟨a, p,
        (balances.foldl calcBalStep (events.foldl calcStep calcInit)).eventsOf p,
        ((balances.foldl calcBalStep (events.foldl calcStep calcInit)).plOf p).take
          p.underlying_tokens.length,
        (balances.foldl calcBalStep (events.foldl calcStep calcInit)).usdOf p⟩ :
          BalancerPoolEventsBalance) =
      ⟨a, p, events.filter (fun e => e.pool_address_token = p),
        (groupedPl calcOp p events balances).take p.underlying_tokens.length,
        groupedUsd calcOp p events balances⟩ := by
    intro p
    have hev : (balances.foldl calcBalStep (events.foldl calcStep calcInit)).eventsOf p =
        events.filter (fun e => e.pool_address_token = p) := by
      rw [foldl_calcBalStep_eventsOf, foldl_calcStep_eventsOf]
      exact foldl_snoc_eq_append _ _
    have hpl : (balances.foldl calcBalStep (events.foldl calcStep calcInit)).plOf p =
        groupedPl calcOp p events balances := by
      rw [foldl_calcBalStep_plOf, foldl_calcStep_plOf]
      rfl
    have husd : (balances.foldl calcBalStep (events.foldl calcStep calcInit)).usdOf p =
        groupedUsd calcOp p events balances := by
      rw [foldl_calcBalStep_usdOf, foldl_calcStep_usdOf]
      rfl
    rw [hev, hpl, husd]
  exact List.map_congr_left (fun p _ => hfun p)

theorem sum_map_add {α : Type} (l : List α) (f g : α → Nat) :
    (l.map (fun x => f x + g x)).sum = (l.map f).sum + (l.map g).sum := by
  induction l with
  | nil => simp
  | cons x rest ih =>
    simp only [List.map_cons, List.sum_cons, ih]
    omega

theorem aggFold_ok (price : TokenAddr → Timestamp → Rat) (pool : PoolTok)
    (l : List BalancerInvestEvent) (acc : AggAcc)
    (hres : ∀ e ∈ l, tokenAddrToIndex pool.underlying_tokens e.token_address ≠ none) :
    ∃ out, aggFold price pool acc l = .ok out := by
  induction l generalizing acc with
  | nil => exact ⟨acc, rfl⟩
  | cons e rest ih =>
    have he := hres e (by simp)
    cases hidx : tokenAddrToIndex pool.underlying_tokens e.token_address with
    | none => exact absurd hidx he
    | some i =>
      have hrest : ∀ e' ∈ rest,
          tokenAddrToIndex pool.underlying_tokens e'.token_address ≠ none :=
        fun e' h' => hres e' (by simp [h'])
      simp only [aggFold, hidx]
      by_cases hm : acc.missing
      · simp only [hm, if_true]
        exact ih _ hrest
      · simp only [hm, if_false]
        exact ih _ hrest

theorem aggFold_missing (price : TokenAddr → Timestamp → Rat) (pool : PoolTok)
    (l : List BalancerInvestEvent) (a0 : List Rat) (u0 : Rat)
    (hres : ∀ e ∈ l, tokenAddrToIndex pool.underlying_tokens e.token_address ≠ none) :
    ∃ am, aggFold price pool ⟨a0, u0, true⟩ l = .ok ⟨am, u0, true⟩ := by
  induction l generalizing a0 with
  | nil => exact ⟨a0, rfl⟩
  | cons e rest ih =>
    have he := hres e (by simp)
    cases hidx : tokenAddrToIndex pool.underlying_tokens e.token_address with
    | none => exact absurd hidx he
    | some i =>
      have hrest : ∀ e' ∈ rest,
          tokenAddrToIndex pool.underlying_tokens e'.token_address ≠ none :=
        fun e' h' => hres e' (by simp [h'])
      simp only [aggFold, hidx]
      exact ih _ hrest

theorem aggFold_all_nonzero (price : TokenAddr → Timestamp → Rat) (pool : PoolTok)
    (l : List BalancerInvestEvent) (a0 : List Rat) (u0 : Rat)
    (hres : ∀ e ∈ l, tokenAddrToIndex pool.underlying_tokens e.token_address ≠ none)
    (hnz : ∀ e ∈ l, price e.token_address e.timestamp ≠ 0) :
    ∃ am, aggFold price pool ⟨a0, u0, false⟩ l =
      .ok ⟨am, u0 + (l.map (fun e => price e.token_address e.timestamp * e.amount)).sum,
        false⟩ := by
  induction l generalizing a0 u0 with
  | nil => exact ⟨a0, by simp [aggFold]⟩
  | cons e rest ih =>
    have he := hres e (by simp)
    cases hidx : tokenAddrToIndex pool.underlying_tokens e.token_address with
    | none => exact absurd hidx he
    | some i =>
      have hrest : ∀ e' ∈ rest,
          tokenAddrToIndex pool.underlying_tokens e'.token_address ≠ none :=
        fun e' h' => hres e' (by simp [h'])
      have hnzrest : ∀ e' ∈ rest, price e'.token_address e'.timestamp ≠ 0 :=
        fun e' h' => hnz e' (by simp [h'])
      have hnze : decide (price e.token_address e.timestamp = 0) = false :=
        decide_eq_false (hnz e (by simp))
      simp only [aggFold, hidx, Bool.false_eq_true, if_false, hnze]
      obtain ⟨am, ham⟩ := ih (addAt a0 i e.amount)
        (u0 + price e.token_address e.timestamp * e.amount) hrest hnzrest
      refine ⟨am, ?_⟩
      rw [ham]
      simp only [List.map_cons, List.sum_cons]
      rw [add_assoc]

theorem aggFold_exists_zero (price : TokenAddr → Timestamp → Rat) (pool : PoolTok)
    (l : List BalancerInvestEvent) (a0 : List Rat) (u0 : Rat)
    (hres : ∀ e ∈ l, tokenAddrToIndex pool.underlying_tokens e.token_address ≠ none)
    (hz : ∃ e ∈ l, price e.token_address e.timestamp = 0) :
    ∃ am u, aggFold price pool ⟨a0, u0, false⟩ l = .ok ⟨am, u, true⟩ := by
  induction l generalizing a0 u0 with
  | nil =>
    obtain ⟨e, he, _⟩ := hz
    exact absurd he (by simp)
  | cons e rest ih =>
    have he := hres e (by simp)
    cases hidx : tokenAddrToIndex pool.underlying_tokens e.token_address with
    | none => exact absurd hidx he
    | some i =>
      have hrest : ∀ e' ∈ rest,
          tokenAddrToIndex pool.underlying_tokens e'.token_address ≠ none :=
        fun e' h' => hres e' (by simp [h'])
      by_cases hp : price e.token_address e.timestamp = 0
      · have hdec : decide (price e.token_address e.timestamp = 0) = true := decide_eq_true hp
        simp only [aggFold, hidx, Bool.false_eq_true, if_false, hdec]
        obtain ⟨am, ham⟩ := aggFold_missing price pool rest (addAt a0 i e.amount)
          (u0 + price e.token_address e.timestamp * e.amount) hrest
        exact ⟨am, u0 + price e.token_address e.timestamp * e.amount, ham⟩
      · have hdec : decide (price e.token_address e.timestamp = 0) = false := decide_eq_false hp
        simp only [aggFold, hidx, Bool.false_eq_true, if_false, hdec]
        obtain ⟨e', he', hz'⟩ := hz
        rcases List.mem_cons.mp he' with rfl | hmem
        · exact absurd hz' hp
        · exact ih (addAt a0 i e.amount)
            (u0 + price e.token_address e.timestamp * e.amount) hrest ⟨e', hmem, hz'⟩

theorem buildBalancerEvent_error_of_empty (price : TokenAddr → Timestamp → Rat)
    (invests : List BalancerInvestEvent) (bpt : BalancerBPTEvent)
    (hg : investsFor invests bpt.tx_hash bpt.pool_address_token = []) :
    buildBalancerEvent price invests bpt = .error .missingInvestEvents := by
  simp only [buildBalancerEvent, hg]

theorem buildBalancerEvent_ok (price : TokenAddr → Timestamp → Rat)
    (invests : List BalancerInvestEvent) (bpt : BalancerBPTEvent)
    (hne : investsFor invests bpt.tx_hash bpt.pool_address_token ≠ [])
    (hres : ∀ e ∈ investsFor invests bpt.tx_hash bpt.pool_address_token,
      tokenAddrToIndex bpt.pool_address_token.underlying_tokens e.token_address ≠ none) :
    ∃ ev, buildBalancerEvent price invests bpt = .ok ev := by
  cases hg : investsFor invests bpt.tx_hash bpt.pool_address_token with
  | nil => exact absurd hg hne
  | cons g0 grest =>
    rw [hg] at hres
    obtain ⟨out, hout⟩ := aggFold_ok price bpt.pool_address_token (g0 :: grest)
      ⟨List.replicate bpt.pool_address_token.underlying_tokens.length 0, 0, false⟩ hres
    exact ⟨_, by simp only [buildBalancerEvent, hg, hout]; rfl⟩

theorem aggregateByType_ok_length (price : TokenAddr → Timestamp → Rat)
    (invests : List BalancerInvestEvent) (bpts : List BalancerBPTEvent)
    (h : ∀ b ∈ bpts, ∃ ev, buildBalancerEvent price invests b = .ok ev) :
    ∃ evs, aggregateByType price invests bpts = .ok evs ∧ evs.length = bpts.length := by
  induction bpts with
  | nil => exact ⟨[], rfl, rfl⟩
  | cons b bs ih =>
    obtain ⟨ev, hev⟩ := h b (by simp)
    obtain ⟨evs, hevs, hlen⟩ := ih (fun b' hb' => h b' (by simp [hb']))
    exact ⟨ev :: evs, by simp only [aggregateByType, hev, hevs], by simp [hlen]⟩

theorem aggregateByType_ok_forall (price : TokenAddr → Timestamp → Rat)
    (invests : List BalancerInvestEvent) (bpts : List BalancerBPTEvent)
    (evs : List BalancerEvent)
    (h : aggregateByType price invests bpts = .ok evs) :
    ∀ b ∈ bpts, ∃ ev, buildBalancerEvent price invests b = .ok ev := by
  induction bpts generalizing evs with
  | nil => intro b hb; exact absurd hb (by simp)
  | cons b bs ih =>
    intro b' hb'
    cases hb : buildBalancerEvent price invests b with
    | error err =>
      simp only [aggregateByType, hb] at h
      exact Except.noConfusion h
    | ok ev =>
      simp only [aggregateByType, hb] at h
      cases hbs : aggregateByType price invests bs with
      | error err =>
        rw [hbs] at h
        exact Except.noConfusion h
      | ok evs' =>
        rcases List.mem_cons.mp hb' with rfl | hmem
        · exact ⟨ev, hb⟩
        · exact ih evs' hbs b' hmem

theorem aggregatePass_ok_length (price : TokenAddr → Timestamp → Rat)
    (select : BalancerEventsData → List BalancerInvestEvent × List BalancerBPTEvent)
    (datas : List (Addr × BalancerEventsData))
    (h : ∀ ad ∈ datas, ∃ evs,
      aggregateByType price (select ad.2).1 (select ad.2).2 = .ok evs ∧
        evs.length = (select ad.2).2.length) :
    ∃ evs, aggregatePass price select datas = .ok evs ∧
      evs.length = (datas.map (fun ad => (select ad.2).2.length)).sum := by
  induction datas with
  | nil => exact ⟨[], rfl, by simp⟩
  | cons ad rest ih =>
    obtain ⟨a, d⟩ := ad
    obtain ⟨evs1, h1, hl1⟩ := h (a, d) (by simp)
    obtain ⟨evs2, h2, hl2⟩ := ih (fun ad' h' => h ad' (by simp [h']))
    exact ⟨evs1 ++ evs2, by simp only [aggregatePass, h1, h2], by simp [hl1, hl2]⟩

theorem aggregatePass_ok_forall (price : TokenAddr → Timestamp → Rat)
    (select : BalancerEventsData → List BalancerInvestEvent × List BalancerBPTEvent)
    (datas : List (Addr × BalancerEventsData)) (evs : List BalancerEvent)
    (h : aggregatePass price select datas = .ok evs) :
    ∀ ad ∈ datas, ∃ evs',
      aggregateByType price (select ad.2).1 (select ad.2).2 = .ok evs' := by
  induction datas generalizing evs with
  | nil => intro ad had; exact absurd had (by simp)
  | cons ad rest ih =>
    obtain ⟨a, d⟩ := ad
    intro ad' had'
    cases hd : aggregateByType price (select d).1 (select d).2 with
    | error err =>
      simp only [aggregatePass, hd] at h
      exact Except.noConfusion h
    | ok evs1 =>
      simp only [aggregatePass, hd] at h
      cases hrest : aggregatePass price select rest with
      | error err =>
        rw [hrest] at h
        exact Except.noConfusion h
      | ok evs2 =>
        rcases List.mem_cons.mp had' with rfl | hmem
        · exact ⟨evs1, hd⟩
        · exact ih evs2 hrest ad' hmem

theorem investsFor_filter_subsume (q : BalancerInvestEvent → Bool)
    (invests : List BalancerInvestEvent) (tx : TxHash) (pool : PoolTok)
    (h : ∀ e ∈ invests, e.tx_hash = tx → e.pool_address_token = pool → q e = true) :
    investsFor (invests.filter q) tx pool = investsFor invests tx pool := by
  unfold investsFor
  induction invests with
  | nil => rfl
  | cons e rest ih =>
    have ihr := ih (fun e' he' h1 h2 => h e' (List.mem_cons_of_mem _ he') h1 h2)
    by_cases hq : q e = true
    · simp only [List.filter_cons, hq, if_true]
      rw [ihr]
    · rw [Bool.not_eq_true] at hq
      have hk : decide (e.tx_hash = tx ∧ e.pool_address_token = pool) = false := by
        apply decide_eq_false
        intro hand
        rw [h e (by simp) hand.1 hand.2] at hq
        exact Bool.noConfusion hq
      simp only [List.filter_cons, hq, hk, Bool.false_eq_true, if_false]
      exact ihr

theorem buildBalancerEvent_congr (price : TokenAddr → Timestamp → Rat)
    (invests1 invests2 : List BalancerInvestEvent) (b : BalancerBPTEvent)
    (h : investsFor invests1 b.tx_hash b.pool_address_token =
      investsFor invests2 b.tx_hash b.pool_address_token) :
    buildBalancerEvent price invests1 b = buildBalancerEvent price invests2 b := by
  simp only [buildBalancerEvent, h]

theorem aggregateByType_congr (price : TokenAddr → Timestamp → Rat)
    (invests1 invests2 : List BalancerInvestEvent) (bpts : List BalancerBPTEvent)
    (h : ∀ b ∈ bpts, investsFor invests1 b.tx_hash b.pool_address_token =
      investsFor invests2 b.tx_hash b.pool_address_token) :
    aggregateByType price invests1 bpts = aggregateByType price invests2 bpts := by
  induction bpts with
  | nil => rfl
  | cons b bs ih =>
    simp only [aggregateByType]
    rw [buildBalancerEvent_congr price invests1 invests2 b (h b (by simp)),
      ih (fun b' hb' => h b' (by simp [hb']))]

/-- Claim C3, counterexample: a synchronization whose fetched data contains an
ADD_LIQUIDITY investment event (`cexInvest`) with no pool-token event at all
completes without raising any `RemoteError` (`raised = false`), and the
aggregation succeeds producing no event — the orphaned investment event is
silently skipped, not surfaced as a failure as the claim requires. -/
theorem C3_counterexample :
    (get_address_to_pool_events_balances cexPrice cexFetchUnmatched
      (fun _ => []) cexDB [5] 0 100).raised = false ∧
    aggregateAll cexPrice [(5, cexUnmatchedInvestData)] = .ok [] := by
  exact ⟨rfl, rfl⟩

/-- Claim C3 (corrected): the integrity check runs in the opposite direction
to the one claimed. A pool-token (MINT/BURN) event whose (transaction, pool)
group contains no investment event makes the aggregation fail with a
`RemoteError`; an investment event whose (transaction, pool) never matches a
pool-token event is silently dropped: aggregation is unchanged when such
events are filtered out beforehand. -/
theorem C3_orphan_direction (price : TokenAddr → Timestamp → Rat)
    (invests : List BalancerInvestEvent) (bpts : List BalancerBPTEvent) :
    (∀ b ∈ bpts, investsFor invests b.tx_hash b.pool_address_token = [] →
      ∀ evs, aggregateByType price invests bpts ≠ .ok evs)
  ∧ aggregateByType price invests bpts =
      aggregateByType price
        (invests.filter (fun e => bpts.any (fun b =>
          decide (b.tx_hash = e.tx_hash ∧ b.pool_address_token = e.pool_address_token))))
        bpts := by
  constructor
  · intro b hb hempty evs hok
    obtain ⟨ev, hev⟩ := aggregateByType_ok_forall price invests bpts evs hok b hb
    rw [buildBalancerEvent_error_of_empty price invests b hempty] at hev
    exact Except.noConfusion hev
  · have hgroups : ∀ b ∈ bpts,
        investsFor (invests.filter (fun e => bpts.any (fun b' =>
          decide (b'.tx_hash = e.tx_hash ∧ b'.pool_address_token = e.pool_address_token))))
          b.tx_hash b.pool_address_token =
        investsFor invests b.tx_hash b.pool_address_token := by
      intro b hb
      apply investsFor_filter_subsume
      intro e _ h1 h2
      refine List.any_eq_true.mpr ⟨b, hb, ?_⟩
      exact decide_eq_true ⟨h1.symm, h2.symm⟩
    exact aggregateByType_congr price invests _ bpts (fun b hb => (hgroups b hb).symm)

/-- Claim C3, witness: the corrected orphan-direction theorem applied at a
concrete input: an un-matched MINT pool-token event makes the aggregation
fail, and filtering out investment events that match no pool-token event
leaves the aggregation unchanged. -/
theorem C3_witness :
    (∀ evs, aggregateByType cexPrice [] [cexBpt] ≠ .ok evs) ∧
    aggregateByType cexPrice [cexInvest] [cexBpt] =
      aggregateByType cexPrice
        ([cexInvest].filter (fun e => [cexBpt].any (fun b =>
          decide (b.tx_hash = e.tx_hash ∧ b.pool_address_token = e.pool_address_token))))
        [cexBpt] :=
  ⟨(C3_orphan_direction cexPrice [] [cexBpt]).1 cexBpt (by simp) rfl,
   (C3_orphan_direction cexPrice [cexInvest] [cexBpt]).2⟩

/-- Claim C4: whenever every pool-token event of every fetched bundle has at
least one investment event with the same (transaction, pool) key in the same
address's bundle — and each such investment event's token resolves to an index
in the pool — the aggregation succeeds and produces exactly one
`BalancerEvent` per pool-token event; and whenever some pool-token event's
group is empty, the aggregation fails and produces no result at all. -/
theorem C4_pairing_completeness (price : TokenAddr → Timestamp → Rat)
    (datas : List (Addr × BalancerEventsData)) :
    ((∀ ad ∈ datas,
        (∀ b ∈ ad.2.mints,
          investsFor ad.2.add_liquidities b.tx_hash b.pool_address_token ≠ [] ∧
          ∀ e ∈ investsFor ad.2.add_liquidities b.tx_hash b.pool_address_token,
            tokenAddrToIndex b.pool_address_token.underlying_tokens e.token_address ≠ none) ∧
        (∀ b ∈ ad.2.burns,
          investsFor ad.2.remove_liquidities b.tx_hash b.pool_address_token ≠ [] ∧
          ∀ e ∈ investsFor ad.2.remove_liquidities b.tx_hash b.pool_address_token,
            tokenAddrToIndex b.pool_address_token.underlying_tokens e.token_address ≠ none)) →
      ∃ evs, aggregateAll price datas = .ok evs ∧
        evs.length = (datas.map (fun ad => ad.2.mints.length + ad.2.burns.length)).sum)
  ∧ ((∃ ad ∈ datas,
        (∃ b ∈ ad.2.mints,
          investsFor ad.2.add_liquidities b.tx_hash b.pool_address_token = []) ∨
        (∃ b ∈ ad.2.burns,
          investsFor ad.2.remove_liquidities b.tx_hash b.pool_address_token = [])) →
      ∀ evs, aggregateAll price datas ≠ .ok evs) := by
  constructor
  · intro h
    obtain ⟨evs1, h1, hl1⟩ := aggregatePass_ok_length price
      (fun d => (d.add_liquidities, d.mints)) datas
      (fun ad had => aggregateByType_ok_length price ad.2.add_liquidities ad.2.mints
        (fun b hb => buildBalancerEvent_ok price ad.2.add_liquidities b
          ((h ad had).1 b hb).1 ((h ad had).1 b hb).2))
    obtain ⟨evs2, h2, hl2⟩ := aggregatePass_ok_length price
      (fun d => (d.remove_liquidities, d.burns)) datas
      (fun ad had => aggregateByType_ok_length price ad.2.remove_liquidities ad.2.burns
        (fun b hb => buildBalancerEvent_ok price ad.2.remove_liquidities b
          ((h ad had).2 b hb).1 ((h ad had).2 b hb).2))
    refine ⟨evs1 ++ evs2, by simp only [aggregateAll, h1, h2], ?_⟩
    rw [List.length_append, hl1, hl2, sum_map_add]
  · intro hex evs hok
    cases hp1 : aggregatePass price (fun d => (d.add_liquidities, d.mints)) datas with
    | error err =>
      simp only [aggregateAll, hp1] at hok
      exact Except.noConfusion hok
    | ok evs1 =>
      simp only [aggregateAll, hp1] at hok
      cases hp2 : aggregatePass price (fun d => (d.remove_liquidities, d.burns)) datas with
      | error err =>
        rw [hp2] at hok
        exact Except.noConfusion hok
      | ok evs2 =>
        obtain ⟨ad, had, hor⟩ := hex
        rcases hor with ⟨b, hb, hempty⟩ | ⟨b, hb, hempty⟩
        · obtain ⟨evsA, hA⟩ := aggregatePass_ok_forall price _ datas evs1 hp1 ad had
          obtain ⟨ev, hev⟩ := aggregateByType_ok_forall price _ _ evsA hA b hb
          rw [buildBalancerEvent_error_of_empty price _ b hempty] at hev
          exact Except.noConfusion hev
        · obtain ⟨evsA, hA⟩ := aggregatePass_ok_forall price _ datas evs2 hp2 ad had
          obtain ⟨ev, hev⟩ := aggregateByType_ok_forall price _ _ evsA hA b hb
          rw [buildBalancerEvent_error_of_empty price _ b hempty] at hev
          exact Except.noConfusion hev

/-- Claim C4, witness: the pairing-completeness theorem applied to a single
address whose bundle has one matched MINT pool-token event: aggregation
succeeds with exactly one produced event. -/
theorem C4_witness :
    ∃ evs, aggregateAll cexPrice [(5, cexGoodData)] = .ok evs ∧
      evs.length = ([((5 : Addr), cexGoodData)].map
        (fun ad => ad.2.mints.length + ad.2.burns.length)).sum :=
  (C4_pairing_completeness cexPrice [(5, cexGoodData)]).1 (by decide)

/-- Claim C5: for an aggregation group (the investment events matching a
pool-token event's transaction and pool), if any price lookup returns zero,
the produced event's final USD value is exactly zero even though non-zero
partial sums may have been accumulated; if every lookup is non-zero, the
final USD value is the sum over the group of `price(token, timestamp) * amount`. -/
theorem C5_price_poisoning (price : TokenAddr → Timestamp → Rat)
    (invests : List BalancerInvestEvent) (bpt : BalancerBPTEvent)
    (hne : investsFor invests bpt.tx_hash bpt.pool_address_token ≠ [])
    (hres : ∀ e ∈ investsFor invests bpt.tx_hash bpt.pool_address_token,
      tokenAddrToIndex bpt.pool_address_token.underlying_tokens e.token_address ≠ none) :
    ∃ ev, buildBalancerEvent price invests bpt = .ok ev ∧
      ((∃ e ∈ investsFor invests bpt.tx_hash bpt.pool_address_token,
          price e.token_address e.timestamp = 0) →
        ev.lp_balance.usd_value = 0) ∧
      ((∀ e ∈ investsFor invests bpt.tx_hash bpt.pool_address_token,
          price e.token_address e.timestamp ≠ 0) →
        ev.lp_balance.usd_value =
          ((investsFor invests bpt.tx_hash bpt.pool_address_token).map
            (fun e => price e.token_address e.timestamp * e.amount)).sum) := by
  cases hg : investsFor invests bpt.tx_hash bpt.pool_address_token with
  | nil => exact absurd hg hne
  | cons g0 grest =>
    rw [hg] at hres
    obtain ⟨out, hout⟩ := aggFold_ok price bpt.pool_address_token (g0 :: grest)
      ⟨List.replicate bpt.pool_address_token.underlying_tokens.length 0, 0, false⟩ hres
    refine ⟨_, by simp only [buildBalancerEvent, hg, hout]; rfl, ?_, ?_⟩
    · intro hz
      obtain ⟨am, u, hfold⟩ := aggFold_exists_zero price bpt.pool_address_token (g0 :: grest)
        (List.replicate bpt.pool_address_token.underlying_tokens.length 0) 0 hres hz
      rw [hout] at hfold
      have hmiss : out = ⟨am, u, true⟩ := by injection hfold
      show (if out.missing = true then (0 : Rat) else out.usd) = 0
      rw [hmiss]
      rfl
    · intro hnz
      obtain ⟨am, hfold⟩ := aggFold_all_nonzero price bpt.pool_address_token (g0 :: grest)
        (List.replicate bpt.pool_address_token.underlying_tokens.length 0) 0 hres hnz
      rw [hout] at hfold
      have hval : out = ⟨am,
          0 + ((g0 :: grest).map (fun e => price e.token_address e.timestamp * e.amount)).sum,
          false⟩ := by injection hfold
      show (if out.missing = true then (0 : Rat) else out.usd) =
        ((g0 :: grest).map (fun e => price e.token_address e.timestamp * e.amount)).sum
      rw [hval]
      simp

/-- Claim C5, witness: the price-poisoning theorem applied at a group of two
investment events with unit prices. -/
theorem C5_witness :
    ∃ ev, buildBalancerEvent cexPrice [cexInvest, cexInvest2] cexBpt = .ok ev ∧
      ((∃ e ∈ investsFor [cexInvest, cexInvest2] cexBpt.tx_hash cexBpt.pool_address_token,
          cexPrice e.token_address e.timestamp = 0) →
        ev.lp_balance.usd_value = 0) ∧
      ((∀ e ∈ investsFor [cexInvest, cexInvest2] cexBpt.tx_hash cexBpt.pool_address_token,
          cexPrice e.token_address e.timestamp ≠ 0) →
        ev.lp_balance.usd_value =
          ((investsFor [cexInvest, cexInvest2] cexBpt.tx_hash cexBpt.pool_address_token).map
            (fun e => cexPrice e.token_address e.timestamp * e.amount)).sum) :=
  C5_price_poisoning cexPrice [cexInvest, cexInvest2] cexBpt (by decide)
    (by decide)

theorem bptRequestTrace_head (pages : QueryId → Nat → List BalancerBPTEvent)
    (fuel : Nat) (qid : QueryId) (off : Nat) (hf : fuel ≠ 0) :
    (bptRequestTrace pages fuel qid off).head? = some (qid, off) := by
  cases fuel with
  | zero => exact absurd rfl hf
  | succ n => rfl

theorem bptRequestTrace_chain (pages : QueryId → Nat → List BalancerBPTEvent)
    (fuel : Nat) (qid : QueryId) (off : Nat) :
    List.Chain' (bptStep pages) (bptRequestTrace pages fuel qid off) := by
  induction fuel generalizing qid off with
  | zero => exact List.chain'_nil
  | succ n ih =>
    rw [bptRequestTrace]
    apply List.chain'_cons'.mpr
    constructor
    · intro r hr
      by_cases hshort : (pages qid off).length < GRAPH_QUERY_LIMIT
      · rw [if_pos hshort] at hr
        exact absurd hr (by simp)
      · rw [if_neg hshort] at hr
        by_cases hskip : off = GRAPH_QUERY_SKIP_LIMIT
        · rw [if_pos hskip] at hr
          cases n with
          | zero => exact absurd hr (by simp [bptRequestTrace])
          | succ m =>
            rw [bptRequestTrace_head pages (m + 1) (bptCursor (pages qid off)) 0
              (Nat.succ_ne_zero m)] at hr
            have hr' : r = (bptCursor (pages qid off), 0) := (Option.mem_some_iff.mp hr).symm
            subst hr'
            exact ⟨Nat.le_of_not_lt hshort, Or.inr ⟨hskip, rfl, rfl⟩⟩
        · rw [if_neg hskip] at hr
          cases n with
          | zero => exact absurd hr (by simp [bptRequestTrace])
          | succ m =>
            rw [bptRequestTrace_head pages (m + 1) qid (off + GRAPH_QUERY_LIMIT)
              (Nat.succ_ne_zero m)] at hr
            have hr' : r = (qid, off + GRAPH_QUERY_LIMIT) := (Option.mem_some_iff.mp hr).symm
            subst hr'
            exact ⟨Nat.le_of_not_lt hshort, Or.inl ⟨hskip, rfl, rfl⟩⟩
    · by_cases hshort : (pages qid off).length < GRAPH_QUERY_LIMIT
      · rw [if_pos hshort]
        exact List.chain'_nil
      · rw [if_neg hshort]
        by_cases hskip : off = GRAPH_QUERY_SKIP_LIMIT
        · rw [if_pos hskip]
          exact ih _ _
        · rw [if_neg hskip]
          exact ih _ _

theorem bptRequestTrace_offsets (pages : QueryId → Nat → List BalancerBPTEvent)
    (fuel : Nat) (qid : QueryId) (off : Nat)
    (hoff : off ≤ GRAPH_QUERY_SKIP_LIMIT) (hdvd : GRAPH_QUERY_LIMIT ∣ off) :
    ∀ r ∈ bptRequestTrace pages fuel qid off,
      r.2 ≤ GRAPH_QUERY_SKIP_LIMIT ∧ GRAPH_QUERY_LIMIT ∣ r.2 := by
  induction fuel generalizing qid off with
  | zero =>
    intro r hr
    exact absurd hr (by simp [bptRequestTrace])
  | succ n ih =>
    intro r hr
    rw [bptRequestTrace] at hr
    rcases List.mem_cons.mp hr with rfl | hmem
    · exact ⟨hoff, hdvd⟩
    · by_cases hshort : (pages qid off).length < GRAPH_QUERY_LIMIT
      · rw [if_pos hshort] at hmem
        exact absurd hmem (by simp)
      · rw [if_neg hshort] at hmem
        by_cases hskip : off = GRAPH_QUERY_SKIP_LIMIT
        · rw [if_pos hskip] at hmem
          exact ih _ 0 (by simp [GRAPH_QUERY_SKIP_LIMIT]) (dvd_zero _) r hmem
        · rw [if_neg hskip] at hmem
          refine ih _ _ ?_ ?_ r hmem
          · obtain ⟨k, rfl⟩ := hdvd
            simp only [GRAPH_QUERY_LIMIT, GRAPH_QUERY_SKIP_LIMIT] at hoff hskip ⊢
            omega
          · obtain ⟨k, hk⟩ := hdvd
            exact ⟨k + 1, by rw [hk]; ring⟩

theorem balanceRequestTrace_head {α : Type} (pages : Nat → List α) (fuel off : Nat)
    (hf : fuel ≠ 0) :
    (balanceRequestTrace pages fuel off).head? = some off := by
  cases fuel with
  | zero => exact absurd rfl hf
  | succ n => rfl

theorem balanceRequestTrace_chain {α : Type} (pages : Nat → List α) (fuel off : Nat) :
    List.Chain'
      (fun o1 o2 => GRAPH_QUERY_LIMIT ≤ (pages o1).length ∧ o2 = o1 + GRAPH_QUERY_LIMIT)
      (balanceRequestTrace pages fuel off) := by
  induction fuel generalizing off with
  | zero => exact List.chain'_nil
  | succ n ih =>
    rw [balanceRequestTrace]
    apply List.chain'_cons'.mpr
    constructor
    · intro o ho
      by_cases hshort : (pages off).length < GRAPH_QUERY_LIMIT
      · rw [if_pos hshort] at ho
        exact absurd ho (by simp)
      · rw [if_neg hshort] at ho
        cases n with
        | zero => exact absurd ho (by simp [balanceRequestTrace])
        | succ m =>
          rw [balanceRequestTrace_head pages (m + 1) (off + GRAPH_QUERY_LIMIT)
            (Nat.succ_ne_zero m)] at ho
          have ho' : o = off + GRAPH_QUERY_LIMIT := (Option.mem_some_iff.mp ho).symm
          subst ho'
          exact ⟨Nat.le_of_not_lt hshort, rfl⟩
    · by_cases hshort : (pages off).length < GRAPH_QUERY_LIMIT
      · rw [if_pos hshort]
        exact List.chain'_nil
      · rw [if_neg hshort]
        exact ih _

set_option maxRecDepth 100000 in
/-- Claim C6, counterexample: the protocol-balance fetch
(`_get_protocol_balance_graph`) never switches to a continuation cursor: fed
full pages through the skip limit, its request trace continues past offset
`GRAPH_QUERY_SKIP_LIMIT = 5000` to offset 6000 with the numeric offset still
the only pagination key — the claimed cursor switch and offset reset at S
never happen for this paginated fetch. -/
theorem C6_counterexample :
    balanceRequestTrace cexBalancePages 10 0 = [0, 1000, 2000, 3000, 4000, 5000, 6000] ∧
    GRAPH_QUERY_SKIP_LIMIT < 6000 :=
  ⟨rfl, by decide⟩

/-- Claim C6 (corrected): the cursor-switching pagination scheme holds for the
event fetches but not for the protocol-balance fetch. For
`_get_address_to_bpt_events_graph`, consecutive requests follow a full page
and either advance the offset by `GRAPH_QUERY_LIMIT` under the same cursor
(offset below the skip limit) or — exactly at the skip limit — switch the key
to the continuation cursor derived from the last item of the current page and
reset the offset to zero; a page shorter than the limit has no successor
request, and every issued offset is a multiple of the limit bounded by the
skip limit. `_get_protocol_balance_graph` instead always advances the plain
numeric offset by the limit, without any skip-limit switch, so its offsets
can exceed the skip limit. -/
theorem C6_pagination {α : Type} (pages : QueryId → Nat → List BalancerBPTEvent)
    (fuel : Nat) (bpages : Nat → List α) (bfuel boff : Nat) :
    List.Chain' (bptStep pages) (bptRequestTrace pages fuel none 0)
  ∧ (∀ r ∈ bptRequestTrace pages fuel none 0,
      r.2 ≤ GRAPH_QUERY_SKIP_LIMIT ∧ GRAPH_QUERY_LIMIT ∣ r.2)
  ∧ List.Chain'
      (fun o1 o2 => GRAPH_QUERY_LIMIT ≤ (bpages o1).length ∧ o2 = o1 + GRAPH_QUERY_LIMIT)
      (balanceRequestTrace bpages bfuel boff) :=
  ⟨bptRequestTrace_chain pages fuel none 0,
   bptRequestTrace_offsets pages fuel none 0 (by simp [GRAPH_QUERY_SKIP_LIMIT]) (dvd_zero _),
   balanceRequestTrace_chain bpages bfuel boff⟩

/-- Claim C6, witness: the corrected pagination theorem applied at concrete
page oracles and fuel. -/
theorem C6_witness :
    List.Chain' (bptStep cexBptPages) (bptRequestTrace cexBptPages 3 none 0)
  ∧ (∀ r ∈ bptRequestTrace cexBptPages 3 none 0,
      r.2 ≤ GRAPH_QUERY_SKIP_LIMIT ∧ GRAPH_QUERY_LIMIT ∣ r.2)
  ∧ List.Chain'
      (fun o1 o2 =>
        GRAPH_QUERY_LIMIT ≤ (cexBalancePages o1).length ∧ o2 = o1 + GRAPH_QUERY_LIMIT)
      (balanceRequestTrace cexBalancePages 10 0) :=
  C6_pagination cexBptPages 3 cexBalancePages 10 0

theorem insertUnique_pairwise {α κ : Type} [DecidableEq κ] (key : α → κ)
    (s : List α) (e : α) (h : s.Pairwise fun x y => key x ≠ key y) :
    (insertUnique key s e).Pairwise fun x y => key x ≠ key y := by
  unfold insertUnique
  by_cases hx : s.any (fun x => decide (key x = key e)) = true
  · rw [if_pos hx]
    exact h
  · rw [if_neg hx]
    rw [List.pairwise_append]
    refine ⟨h, List.pairwise_singleton _ _, ?_⟩
    intro x hxs y hy
    rw [List.mem_singleton] at hy
    subst hy
    intro hkey
    rw [Bool.not_eq_true, List.any_eq_false] at hx
    have hthis := hx x hxs
    rw [decide_eq_true hkey] at hthis
    exact hthis rfl

theorem insertUnique_key_mem {α κ : Type} [DecidableEq κ] (key : α → κ)
    (s : List α) (e : α) :
    ∃ x ∈ insertUnique key s e, key x = key e := by
  unfold insertUnique
  by_cases hx : s.any (fun x => decide (key x = key e)) = true
  · rw [if_pos hx]
    obtain ⟨x, hxs, hdx⟩ := List.any_eq_true.mp hx
    exact ⟨x, hxs, of_decide_eq_true hdx⟩
  · rw [if_neg hx]
    exact ⟨e, by simp, rfl⟩

theorem insertUnique_mono {α κ : Type} [DecidableEq κ] (key : α → κ)
    (s : List α) (e c : α) (h : ∃ x ∈ s, key x = key c) :
    ∃ x ∈ insertUnique key s e, key x = key c := by
  obtain ⟨x, hx, hk⟩ := h
  unfold insertUnique
  split
  · exact ⟨x, hx, hk⟩
  · exact ⟨x, List.mem_append_left _ hx, hk⟩

theorem insertUnique_noop {α κ : Type} [DecidableEq κ] (key : α → κ)
    (s : List α) (e : α) (h : ∃ x ∈ s, key x = key e) :
    insertUnique key s e = s := by
  obtain ⟨x, hx, hk⟩ := h
  unfold insertUnique
  rw [if_pos (List.any_eq_true.mpr ⟨x, hx, decide_eq_true hk⟩)]

theorem accumulatePage_pairwise {α κ : Type} [DecidableEq κ] (key : α → κ)
    (addrOf : α → Addr) (page : List α) :
    ∀ acc : Addr → List α, (∀ b, (acc b).Pairwise fun x y => key x ≠ key y) →
      ∀ b, (accumulatePage key addrOf acc page b).Pairwise fun x y => key x ≠ key y := by
  induction page with
  | nil => exact fun acc h => h
  | cons e rest ih =>
    intro acc h
    simp only [accumulatePage, List.foldl_cons]
    apply ih
    intro b
    dsimp only
    by_cases hb : b = addrOf e
    · rw [if_pos hb]
      exact insertUnique_pairwise key _ e (h b)
    · rw [if_neg hb]
      exact h b

theorem accumulatePage_pres_mono {α κ : Type} [DecidableEq κ] (key : α → κ)
    (addrOf : α → Addr) (page : List α) :
    ∀ (acc : Addr → List α) (c : α), (∃ x ∈ acc (addrOf c), key x = key c) →
      ∃ x ∈ accumulatePage key addrOf acc page (addrOf c), key x = key c := by
  induction page with
  | nil => exact fun acc c h => h
  | cons e rest ih =>
    intro acc c h
    simp only [accumulatePage, List.foldl_cons]
    apply ih
    dsimp only
    by_cases hb : addrOf c = addrOf e
    · rw [if_pos hb]
      exact insertUnique_mono key _ e c h
    · rw [if_neg hb]
      exact h

theorem accumulatePage_pres_new {α κ : Type} [DecidableEq κ] (key : α → κ)
    (addrOf : α → Addr) (page : List α) :
    ∀ (acc : Addr → List α) (c : α), c ∈ page →
      ∃ x ∈ accumulatePage key addrOf acc page (addrOf c), key x = key c := by
  induction page with
  | nil =>
    intro acc c hc
    exact absurd hc (by simp)
  | cons e rest ih =>
    intro acc c hc
    simp only [accumulatePage, List.foldl_cons]
    rcases List.mem_cons.mp hc with rfl | hmem
    · apply accumulatePage_pres_mono key addrOf rest
      dsimp only
      rw [if_pos rfl]
      exact insertUnique_key_mem key _ c
    · exact ih _ c hmem

theorem accumulatePage_noop {α κ : Type} [DecidableEq κ] (key : α → κ)
    (addrOf : α → Addr) (page : List α) :
    ∀ acc : Addr → List α, (∀ e ∈ page, ∃ x ∈ acc (addrOf e), key x = key e) →
      accumulatePage key addrOf acc page = acc := by
  induction page with
  | nil => exact fun acc _ => rfl
  | cons e rest ih =>
    intro acc h
    simp only [accumulatePage, List.foldl_cons]
    have hstep : (fun a => if a = addrOf e then insertUnique key (acc a) e else acc a) = acc := by
      funext b
      by_cases hb : b = addrOf e
      · rw [if_pos hb]
        subst hb
        exact insertUnique_noop key _ e (h e (by simp))
      · rw [if_neg hb]
    rw [hstep]
    exact ih acc (fun e' he' => h e' (by simp [he']))

theorem accumulatePages_pairwise {α κ : Type} [DecidableEq κ] (key : α → κ)
    (addrOf : α → Addr) (pages : List (List α)) :
    ∀ acc : Addr → List α, (∀ b, (acc b).Pairwise fun x y => key x ≠ key y) →
      ∀ b, (pages.foldl (accumulatePage key addrOf) acc b).Pairwise
        fun x y => key x ≠ key y := by
  induction pages with
  | nil => exact fun acc h => h
  | cons page rest ih =>
    intro acc h
    simp only [List.foldl_cons]
    exact ih _ (accumulatePage_pairwise key addrOf page acc h)

theorem accumulatePages_pres_mono {α κ : Type} [DecidableEq κ] (key : α → κ)
    (addrOf : α → Addr) (pages : List (List α)) :
    ∀ (acc : Addr → List α) (c : α), (∃ x ∈ acc (addrOf c), key x = key c) →
      ∃ x ∈ pages.foldl (accumulatePage key addrOf) acc (addrOf c), key x = key c := by
  induction pages with
  | nil => exact fun acc c h => h
  | cons page rest ih =>
    intro acc c h
    simp only [List.foldl_cons]
    exact ih _ c (accumulatePage_pres_mono key addrOf page acc c h)

theorem accumulatePages_pres {α κ : Type} [DecidableEq κ] (key : α → κ)
    (addrOf : α → Addr) (pages : List (List α)) :
    ∀ (acc : Addr → List α) (c : α), c ∈ pages.flatten →
      ∃ x ∈ pages.foldl (accumulatePage key addrOf) acc (addrOf c), key x = key c := by
  induction pages with
  | nil =>
    intro acc c hc
    exact absurd hc (by simp)
  | cons page rest ih =>
    intro acc c hc
    simp only [List.foldl_cons]
    obtain ⟨s, hs, hcs⟩ := List.mem_flatten.mp hc
    rcases List.mem_cons.mp hs with rfl | hsrest
    · exact accumulatePages_pres_mono key addrOf rest _ c
        (accumulatePage_pres_new key addrOf s acc c hcs)
    · exact ih _ c (List.mem_flatten.mpr ⟨s, hsrest, hcs⟩)

/-- Claim C7: the deduplicating per-address accumulation of the event
fetchers, over arbitrarily many (possibly overlapping) pages: no two output
events share a uniqueness key; every fetched event for the address is
represented by exactly one output event with its key; the per-address output
is sorted by (transaction id, log index); and feeding the same page twice
yields exactly the same output as feeding it once. -/
theorem C7_dedup {α κ : Type} [DecidableEq κ] (key : α → κ) (addrOf : α → Addr)
    (f g : α → Nat) (pages : List (List α)) (p : List α) (a : Addr) :
    ((dedupOutput key addrOf f g pages a).Pairwise fun x y => key x ≠ key y)
  ∧ (∀ e ∈ pages.flatten, addrOf e = a →
      ∃ x ∈ dedupOutput key addrOf f g pages a, key x = key e)
  ∧ List.Sorted (lexLe f g) (dedupOutput key addrOf f g pages a)
  ∧ dedupOutput key addrOf f g (pages ++ [p, p]) a =
      dedupOutput key addrOf f g (pages ++ [p]) a := by
  refine ⟨?_, ?_, ?_, ?_⟩
  · have hacc := accumulatePages_pairwise key addrOf pages (fun _ => [])
      (fun _ => List.Pairwise.nil) a
    have hperm := List.perm_insertionSort (lexLe f g)
      (accumulatePages key addrOf pages a)
    exact (List.Perm.pairwise_iff (fun {x y} h he => h he.symm) hperm).mpr hacc
  · intro e he ha
    obtain ⟨x, hx, hk⟩ := accumulatePages_pres key addrOf pages (fun _ => []) e he
    rw [ha] at hx
    exact ⟨x, (List.perm_insertionSort (lexLe f g) _).mem_iff.mpr hx, hk⟩
  · exact List.sorted_insertionSort (lexLe f g) _
  · have hfun : accumulatePages key addrOf (pages ++ [p, p]) =
        accumulatePages key addrOf (pages ++ [p]) := by
      unfold accumulatePages
      rw [List.foldl_append, List.foldl_append]
      simp only [List.foldl_cons, List.foldl_nil]
      apply accumulatePage_noop
      intro e he
      exact accumulatePage_pres_new key addrOf p _ e he
    unfold dedupOutput
    rw [hfun]

/-- Claim C7, witness: the deduplication theorem applied to the investment
event fetch's key functions at a concrete page list. -/
theorem C7_witness :
    ((dedupOutput (fun e : BalancerInvestEvent => (e.tx_hash, e.log_index, e.token_address))
        (fun e => e.address) (fun e => e.tx_hash) (fun e => e.log_index) [[cexInvest]] 5).Pairwise
      fun x y => (x.tx_hash, x.log_index, x.token_address) ≠
        (y.tx_hash, y.log_index, y.token_address))
  ∧ (∀ e ∈ [[cexInvest]].flatten, e.address = 5 →
      ∃ x ∈ dedupOutput (fun e : BalancerInvestEvent => (e.tx_hash, e.log_index, e.token_address))
        (fun e => e.address) (fun e => e.tx_hash) (fun e => e.log_index) [[cexInvest]] 5,
        (x.tx_hash, x.log_index, x.token_address) = (e.tx_hash, e.log_index, e.token_address))
  ∧ List.Sorted (lexLe (fun e : BalancerInvestEvent => e.tx_hash) (fun e => e.log_index))
      (dedupOutput (fun e : BalancerInvestEvent => (e.tx_hash, e.log_index, e.token_address))
        (fun e => e.address) (fun e => e.tx_hash) (fun e => e.log_index) [[cexInvest]] 5)
  ∧ dedupOutput (fun e : BalancerInvestEvent => (e.tx_hash, e.log_index, e.token_address))
      (fun e => e.address) (fun e => e.tx_hash) (fun e => e.log_index)
      ([[cexInvest]] ++ [[cexInvest2], [cexInvest2]]) 5 =
    dedupOutput (fun e : BalancerInvestEvent => (e.tx_hash, e.log_index, e.token_address))
      (fun e => e.address) (fun e => e.tx_hash) (fun e => e.log_index)
      ([[cexInvest]] ++ [[cexInvest2]]) 5 :=
  C7_dedup (fun e : BalancerInvestEvent => (e.tx_hash, e.log_index, e.token_address))
    (fun e => e.address) (fun e => e.tx_hash) (fun e => e.log_index) [[cexInvest]] [cexInvest2] 5

theorem update_used_query_range_ranges (db : DB) (addrs : List Addr)
    (f t : Timestamp) (a : Addr) :
    (update_used_query_range db addrs f t).ranges a =
      if a ∈ addrs then some (f, t) else db.ranges a := rfl

theorem update_used_query_range_events (db : DB) (addrs : List Addr) (f t : Timestamp) :
    (update_used_query_range db addrs f t).events = db.events := rfl

theorem splitAddresses_fold (ranges : Addr → Option (Timestamp × Timestamp))
    (addresses : List Addr) :
    ∀ acc : List Addr × List Addr × Timestamp,
      addresses.foldl
        (fun acc a =>
          match ranges a with
          | none => (acc.1 ++ [a], acc.2.1, acc.2.2)
          | some r => (acc.1, acc.2.1 ++ [a], min acc.2.2 r.2)) acc =
      (acc.1 ++ addresses.filter (fun a => (ranges a).isNone),
       acc.2.1 ++ addresses.filter (fun a => (ranges a).isSome),
       (addresses.filterMap (fun a => (ranges a).map Prod.snd)).foldl min acc.2.2) := by
  induction addresses with
  | nil => intro acc; simp
  | cons a rest ih =>
    intro acc
    simp only [List.foldl_cons]
    cases hr : ranges a with
    | none =>
      rw [ih]
      simp [List.filter_cons, List.filterMap_cons, hr]
    | some r =>
      rw [ih]
      simp [List.filter_cons, List.filterMap_cons, hr]

theorem splitAddresses_eq (ranges : Addr → Option (Timestamp × Timestamp))
    (addresses : List Addr) (toTs : Timestamp) :
    splitAddresses ranges addresses toTs =
      (addresses.filter (fun a => (ranges a).isNone),
       addresses.filter (fun a => (ranges a).isSome),
       (addresses.filterMap (fun a => (ranges a).map Prod.snd)).foldl min toTs) := by
  unfold splitAddresses
  rw [splitAddresses_fold]
  simp

theorem syncBatches_events (fetch : Timestamp → Timestamp → List Addr →
      List (Addr × BalancerEventsData))
    (db : DB) (addresses : List Addr) (toTs : Timestamp) :
    (syncBatches fetch db addresses toTs).1.events = db.events := by
  simp only [syncBatches, get_address_to_events_data]
  split <;> split <;> rfl

theorem syncBatches_ranges (fetch : Timestamp → Timestamp → List Addr →
      List (Addr × BalancerEventsData))
    (db : DB) (addresses : List Addr) (toTs : Timestamp) (a : Addr) :
    (syncBatches fetch db addresses toTs).1.ranges a =
      if a ∈ (splitAddresses db.ranges addresses toTs).2.1 ∧
          (splitAddresses db.ranges addresses toTs).2.2 < toTs then
        some ((splitAddresses db.ranges addresses toTs).2.2, toTs)
      else if a ∈ (splitAddresses db.ranges addresses toTs).1 then some (0, toTs)
      else db.ranges a := by
  simp only [syncBatches, get_address_to_events_data]
  by_cases h2 : (splitAddresses db.ranges addresses toTs).2.1 ≠ [] ∧
      (splitAddresses db.ranges addresses toTs).2.2 < toTs
  · rw [if_pos h2]
    by_cases h1 : (splitAddresses db.ranges addresses toTs).1 = []
    · rw [if_pos h1]
      rw [update_used_query_range_ranges]
      by_cases hm2 : a ∈ (splitAddresses db.ranges addresses toTs).2.1
      · rw [if_pos hm2, if_pos ⟨hm2, h2.2⟩]
      · have hfirst : ¬(a ∈ (splitAddresses db.ranges addresses toTs).2.1 ∧
            (splitAddresses db.ranges addresses toTs).2.2 < toTs) := fun hc => hm2 hc.1
        rw [if_neg hm2, if_neg hfirst, h1]
        simp
    · rw [if_neg h1]
      rw [update_used_query_range_ranges, update_used_query_range_ranges]
      by_cases hm2 : a ∈ (splitAddresses db.ranges addresses toTs).2.1
      · rw [if_pos hm2, if_pos ⟨hm2, h2.2⟩]
      · have hfirst : ¬(a ∈ (splitAddresses db.ranges addresses toTs).2.1 ∧
            (splitAddresses db.ranges addresses toTs).2.2 < toTs) := fun hc => hm2 hc.1
        rw [if_neg hm2, if_neg hfirst]
  · rw [if_neg h2]
    have hfirst : ¬(a ∈ (splitAddresses db.ranges addresses toTs).2.1 ∧
        (splitAddresses db.ranges addresses toTs).2.2 < toTs) :=
      fun hc => h2 ⟨List.ne_nil_of_mem hc.1, hc.2⟩
    rw [if_neg hfirst]
    by_cases h1 : (splitAddresses db.ranges addresses toTs).1 = []
    · rw [if_pos h1, h1]
      simp
    · rw [if_neg h1, update_used_query_range_ranges]

theorem syncBatches_calls (fetch : Timestamp → Timestamp → List Addr →
      List (Addr × BalancerEventsData))
    (db : DB) (addresses : List Addr) (toTs : Timestamp) :
    (syncBatches fetch db addresses toTs).2.2 =
      (if (splitAddresses db.ranges addresses toTs).1 = [] then []
       else [(0, toTs, (splitAddresses db.ranges addresses toTs).1)]) ++
      (if (splitAddresses db.ranges addresses toTs).2.1 ≠ [] ∧
          (splitAddresses db.ranges addresses toTs).2.2 < toTs then
        [((splitAddresses db.ranges addresses toTs).2.2, toTs,
          (splitAddresses db.ranges addresses toTs).2.1)]
       else []) := by
  simp only [syncBatches, get_address_to_events_data]
  by_cases h2 : (splitAddresses db.ranges addresses toTs).2.1 ≠ [] ∧
      (splitAddresses db.ranges addresses toTs).2.2 < toTs <;>
    by_cases h1 : (splitAddresses db.ranges addresses toTs).1 = [] <;>
      simp [h1, h2]

theorem sync_db_ranges (price : TokenAddr → Timestamp → Rat)
    (fetch : Timestamp → Timestamp → List Addr → List (Addr × BalancerEventsData))
    (live : Addr → List BalancerPoolBalance) (db : DB) (addresses : List Addr)
    (fromTs toTs : Timestamp) (a : Addr) :
    (get_address_to_pool_events_balances price fetch live db addresses fromTs toTs).db.ranges a =
      (syncBatches fetch db addresses toTs).1.ranges a := by
  simp only [get_address_to_pool_events_balances]
  split
  · rfl
  · split
    · rfl
    · rfl

theorem sync_fetchCalls (price : TokenAddr → Timestamp → Rat)
    (fetch : Timestamp → Timestamp → List Addr → List (Addr × BalancerEventsData))
    (live : Addr → List BalancerPoolBalance) (db : DB) (addresses : List Addr)
    (fromTs toTs : Timestamp) :
    (get_address_to_pool_events_balances price fetch live db addresses fromTs toTs).fetchCalls =
      (syncBatches fetch db addresses toTs).2.2 := by
  simp only [get_address_to_pool_events_balances]
  split
  · rfl
  · split
    · rfl
    · rfl

theorem sync_events_raised (price : TokenAddr → Timestamp → Rat)
    (fetch : Timestamp → Timestamp → List Addr → List (Addr × BalancerEventsData))
    (live : Addr → List BalancerPoolBalance) (db : DB) (addresses : List Addr)
    (fromTs toTs : Timestamp) :
    ((get_address_to_pool_events_balances price fetch live db addresses fromTs toTs).raised =
        true →
      (get_address_to_pool_events_balances price fetch live db addresses fromTs toTs).db.events =
        db.events)
  ∧ ((get_address_to_pool_events_balances price fetch live db addresses fromTs toTs).raised =
        false →
      ∃ evs,
        (get_address_to_pool_events_balances price fetch live db addresses fromTs toTs).db.events =
          db.events ++ evs) := by
  have hbe := syncBatches_events fetch db addresses toTs
  simp only [get_address_to_pool_events_balances]
  split
  · refine ⟨fun _ => hbe, fun hfalse => ?_⟩
    simp at hfalse
  · rename_i evs heq
    split
    · refine ⟨fun htrue => ?_, fun _ => ⟨evs, ?_⟩⟩
      · simp at htrue
      · show (syncBatches fetch db addresses toTs).1.events ++ evs = db.events ++ evs
        rw [hbe]
    · refine ⟨fun htrue => ?_, fun _ => ⟨evs, ?_⟩⟩
      · simp at htrue
      · show (syncBatches fetch db addresses toTs).1.events ++ evs = db.events ++ evs
        rw [hbe]

theorem sync_output_char (price : TokenAddr → Timestamp → Rat)
    (fetch : Timestamp → Timestamp → List Addr → List (Addr × BalancerEventsData))
    (live : Addr → List BalancerPoolBalance) (db : DB) (addresses : List Addr)
    (fromTs toTs : Timestamp) :
    (get_address_to_pool_events_balances price fetch live db addresses fromTs toTs).output = []
  ∨ (get_address_to_pool_events_balances price fetch live db addresses fromTs toTs).output =
      (addresses.filterMap (fun a' =>
        let es := sortByTsLog (get_balancer_events
          (get_address_to_pool_events_balances price fetch live db addresses fromTs toTs).db
          a' fromTs toTs)
        if es = [] then none else some (a', es))).map
        (fun ae => (ae.1, calculate_pool_events_balances ae.1 ae.2
          ((if fromTs = 0 then live else fun _ => []) ae.1))) := by
  simp only [get_address_to_pool_events_balances]
  split
  · exact Or.inl rfl
  · split
    · exact Or.inl rfl
    · exact Or.inr rfl

/-- Claim C1, counterexample: a synchronization over an empty database whose
fetch yields an orphaned MINT pool-token event aborts with a `RemoteError`
(`raised = true`) after the range-ledger transaction has already committed:
the final ledger records `(0, 100)` for the fetched address while the events
table is still empty — the ledger advanced although the batch's composite
events were never persisted, so the two writes are not atomic. -/
theorem C1_counterexample :
    (get_address_to_pool_events_balances cexPrice cexFetch (fun _ => [])
        cexDB [5] 0 100).raised = true ∧
    (get_address_to_pool_events_balances cexPrice cexFetch (fun _ => [])
        cexDB [5] 0 100).db.ranges 5 = some (0, 100) ∧
    (get_address_to_pool_events_balances cexPrice cexFetch (fun _ => [])
        cexDB [5] 0 100).db.events = [] ∧
    cexDB.ranges 5 = none ∧ cexDB.events = [] :=
  ⟨rfl, rfl, rfl, rfl, rfl⟩

/-- Claim C1 (corrected): the range-ledger update and the event insertion
commit in two separate scoped write transactions, the ledger first: for every
execution of `_get_address_to_pool_events_balances`, the final ledger equals
the advanced ledger — every fetched address's record ends at `to_timestamp` —
whether or not the run later raised; when aggregation raises a `RemoteError`,
the events table is left unchanged even though the ledger has advanced, and
only a non-raising run appends the produced events. -/
theorem C1_two_write_transactions (price : TokenAddr → Timestamp → Rat)
    (fetch : Timestamp → Timestamp → List Addr → List (Addr × BalancerEventsData))
    (live : Addr → List BalancerPoolBalance) (db : DB) (addresses : List Addr)
    (fromTs toTs : Timestamp) :
    (∀ a : Addr,
      (get_address_to_pool_events_balances price fetch live db addresses fromTs toTs).db.ranges
          a =
        if a ∈ (splitAddresses db.ranges addresses toTs).2.1 ∧
            (splitAddresses db.ranges addresses toTs).2.2 < toTs then
          some ((splitAddresses db.ranges addresses toTs).2.2, toTs)
        else if a ∈ (splitAddresses db.ranges addresses toTs).1 then some (0, toTs)
        else db.ranges a)
  ∧ ((get_address_to_pool_events_balances price fetch live db addresses fromTs toTs).raised =
        true →
      (get_address_to_pool_events_balances price fetch live db addresses fromTs toTs).db.events =
        db.events)
  ∧ ((get_address_to_pool_events_balances price fetch live db addresses fromTs toTs).raised =
        false →
      ∃ evs,
        (get_address_to_pool_events_balances price fetch live db addresses fromTs toTs).db.events =
          db.events ++ evs) :=
  ⟨fun a => (sync_db_ranges price fetch live db addresses fromTs toTs a).trans
      (syncBatches_ranges fetch db addresses toTs a),
   (sync_events_raised price fetch live db addresses fromTs toTs).1,
   (sync_events_raised price fetch live db addresses fromTs toTs).2⟩

/-- Claim C1, witness: the corrected theorem applied at the aborting input of
the counterexample — the raising run leaves the events table unchanged. -/
theorem C1_witness :
    (get_address_to_pool_events_balances cexPrice cexFetch (fun _ => [])
        cexDB [5] 0 100).db.events = cexDB.events :=
  (C1_two_write_transactions cexPrice cexFetch (fun _ => []) cexDB [5] 0 100).2.1 rfl

/-- Claim C8: address classification and incremental range tracking. New
addresses are exactly those without a used-query-range record; existing ones
those with a record; `min_to_timestamp` is the fold of `min` over the
recorded upper bounds starting from the requested `to_timestamp` (the cap);
the issued fetch windows are `[0, to]` for the new batch and `[min_to, to]`
for the existing batch only when `min_to < to`; and after the call, every
fetched address's recorded range is exactly its batch window, so its upper
bound equals `to_timestamp`. -/
theorem C8_query_range_tracking (price : TokenAddr → Timestamp → Rat)
    (fetch : Timestamp → Timestamp → List Addr → List (Addr × BalancerEventsData))
    (live : Addr → List BalancerPoolBalance) (db : DB) (addresses : List Addr)
    (fromTs toTs : Timestamp) :
    ((splitAddresses db.ranges addresses toTs).1 =
      addresses.filter (fun a => (db.ranges a).isNone))
  ∧ ((splitAddresses db.ranges addresses toTs).2.1 =
      addresses.filter (fun a => (db.ranges a).isSome))
  ∧ ((splitAddresses db.ranges addresses toTs).2.2 =
      (addresses.filterMap (fun a => (db.ranges a).map Prod.snd)).foldl min toTs)
  ∧ ((get_address_to_pool_events_balances price fetch live db addresses fromTs
        toTs).fetchCalls =
      (if (splitAddresses db.ranges addresses toTs).1 = [] then []
       else [(0, toTs, (splitAddresses db.ranges addresses toTs).1)]) ++
      (if (splitAddresses db.ranges addresses toTs).2.1 ≠ [] ∧
          (splitAddresses db.ranges addresses toTs).2.2 < toTs then
        [((splitAddresses db.ranges addresses toTs).2.2, toTs,
          (splitAddresses db.ranges addresses toTs).2.1)]
       else []))
  ∧ (∀ c ∈ (get_address_to_pool_events_balances price fetch live db addresses fromTs
        toTs).fetchCalls, ∀ a ∈ c.2.2,
      (get_address_to_pool_events_balances price fetch live db addresses fromTs
        toTs).db.ranges a = some (c.1, toTs)) := by
  have hsplit := splitAddresses_eq db.ranges addresses toTs
  have hA : (splitAddresses db.ranges addresses toTs).1 =
      addresses.filter (fun a => (db.ranges a).isNone) := by rw [hsplit]
  have hB : (splitAddresses db.ranges addresses toTs).2.1 =
      addresses.filter (fun a => (db.ranges a).isSome) := by rw [hsplit]
  refine ⟨hA, hB, by rw [hsplit], ?_, ?_⟩
  · rw [sync_fetchCalls, syncBatches_calls]
  · intro c hc a hac
    rw [sync_fetchCalls, syncBatches_calls] at hc
    rw [sync_db_ranges, syncBatches_ranges]
    rcases List.mem_append.mp hc with hc1 | hc2
    · by_cases h1 : (splitAddresses db.ranges addresses toTs).1 = []
      · rw [if_pos h1] at hc1
        exact absurd hc1 (by simp)
      · rw [if_neg h1] at hc1
        rw [List.mem_singleton] at hc1
        subst hc1
        have hac' : a ∈ (splitAddresses db.ranges addresses toTs).1 := hac
        have hacF : a ∈ addresses.filter (fun a => (db.ranges a).isNone) := by
          rw [← hA]
          exact hac'
        have hnone : (db.ranges a).isNone = true := (List.mem_filter.mp hacF).2
        have hnotin2 : a ∉ (splitAddresses db.ranges addresses toTs).2.1 := by
          intro hm
          have hmF : a ∈ addresses.filter (fun a => (db.ranges a).isSome) := by
            rw [← hB]
            exact hm
          have hsome : (db.ranges a).isSome = true := (List.mem_filter.mp hmF).2
          cases hr : db.ranges a with
          | none => rw [hr] at hsome; exact Bool.noConfusion hsome
          | some v => rw [hr] at hnone; exact Bool.noConfusion hnone
        have hfirst : ¬(a ∈ (splitAddresses db.ranges addresses toTs).2.1 ∧
            (splitAddresses db.ranges addresses toTs).2.2 < toTs) := fun hcc => hnotin2 hcc.1
        rw [if_neg hfirst, if_pos hac']
    · by_cases h2 : (splitAddresses db.ranges addresses toTs).2.1 ≠ [] ∧
          (splitAddresses db.ranges addresses toTs).2.2 < toTs
      · rw [if_pos h2] at hc2
        rw [List.mem_singleton] at hc2
        subst hc2
        have hac' : a ∈ (splitAddresses db.ranges addresses toTs).2.1 := hac
        rw [if_pos ⟨hac', h2.2⟩]
      · rw [if_neg h2] at hc2
        exact absurd hc2 (by simp)

/-- Claim C8, witness: the range-tracking theorem applied at a concrete
synchronization of a fresh address. -/
theorem C8_witness :
    (((splitAddresses cexDB.ranges [5] 100).1 =
      [5].filter (fun a => (cexDB.ranges a).isNone))
  ∧ ((splitAddresses cexDB.ranges [5] 100).2.1 =
      [5].filter (fun a => (cexDB.ranges a).isSome))
  ∧ ((splitAddresses cexDB.ranges [5] 100).2.2 =
      ([5].filterMap (fun a => (cexDB.ranges a).map Prod.snd)).foldl min 100)
  ∧ ((get_address_to_pool_events_balances cexPrice cexFetchGood (fun _ => []) cexDB [5] 0
        100).fetchCalls =
      (if (splitAddresses cexDB.ranges [5] 100).1 = [] then []
       else [(0, 100, (splitAddresses cexDB.ranges [5] 100).1)]) ++
      (if (splitAddresses cexDB.ranges [5] 100).2.1 ≠ [] ∧
          (splitAddresses cexDB.ranges [5] 100).2.2 < 100 then
        [((splitAddresses cexDB.ranges [5] 100).2.2, 100,
          (splitAddresses cexDB.ranges [5] 100).2.1)]
       else []))
  ∧ (∀ c ∈ (get_address_to_pool_events_balances cexPrice cexFetchGood (fun _ => []) cexDB [5] 0
        100).fetchCalls, ∀ a ∈ c.2.2,
      (get_address_to_pool_events_balances cexPrice cexFetchGood (fun _ => []) cexDB [5] 0
        100).db.ranges a = some (c.1, 100))) :=
  C8_query_range_tracking cexPrice cexFetchGood (fun _ => []) cexDB [5] 0 100

/-- Claim C10: the live pool balances are folded into the per-pool
profit/loss computation only when the requested `from_timestamp` is 0. For
`from_timestamp ≠ 0` the whole synchronization outcome is independent of the
live-balances collaborator (it is never consulted), and every returned entry
is computed from the persisted events of the window alone; for
`from_timestamp = 0`, each returned entry folds in the address's live pool
balances as the terminal adjustment. -/
theorem C10_live_balance_gating (price : TokenAddr → Timestamp → Rat)
    (fetch : Timestamp → Timestamp → List Addr → List (Addr × BalancerEventsData))
    (live : Addr → List BalancerPoolBalance) (db : DB) (addresses : List Addr)
    (fromTs toTs : Timestamp) :
    (fromTs ≠ 0 →
      get_address_to_pool_events_balances price fetch live db addresses fromTs toTs =
        get_address_to_pool_events_balances price fetch (fun _ => []) db addresses fromTs toTs)
  ∧ (∀ a bal,
      (a, bal) ∈ (get_address_to_pool_events_balances price fetch live db addresses fromTs
        toTs).output →
      bal = calculate_pool_events_balances a
        (sortByTsLog (get_balancer_events
          (get_address_to_pool_events_balances price fetch live db addresses fromTs toTs).db
          a fromTs toTs))
        (if fromTs = 0 then live a else [])) := by
  constructor
  · intro h0
    simp only [get_address_to_pool_events_balances, if_neg h0]
  · intro a bal hmem
    rcases sync_output_char price fetch live db addresses fromTs toTs with hout | hout
    · rw [hout] at hmem
      exact absurd hmem (by simp)
    · rw [hout] at hmem
      obtain ⟨ae, hae, heq⟩ := List.mem_map.mp hmem
      obtain ⟨a', ha', hf⟩ := List.mem_filterMap.mp hae
      dsimp only at hf
      by_cases hes : sortByTsLog (get_balancer_events
          (get_address_to_pool_events_balances price fetch live db addresses fromTs toTs).db
          a' fromTs toTs) = []
      · rw [if_pos hes] at hf
        exact Option.noConfusion hf
      · rw [if_neg hes] at hf
        injection hf with hf'
        subst hf'
        have h1 : a' = a := congrArg Prod.fst heq
        have h2 : calculate_pool_events_balances a'
            (sortByTsLog (get_balancer_events
              (get_address_to_pool_events_balances price fetch live db addresses fromTs
                toTs).db a' fromTs toTs))
            ((if fromTs = 0 then live else fun _ => []) a') = bal := congrArg Prod.snd heq
        subst h1
        rw [← h2]
        by_cases h0 : fromTs = 0
        · simp [h0]
        · simp [h0]

/-- Claim C10, witness: the gating theorem applied at a request with
`from_timestamp = 50`: the outcome with a non-trivial live-balances oracle
equals the outcome with an empty one. -/
theorem C10_witness :
    get_address_to_pool_events_balances cexPrice cexFetchGood cexLive cexDB [5] 50 100 =
      get_address_to_pool_events_balances cexPrice cexFetchGood (fun _ => []) cexDB [5] 50 100 :=
  (C10_live_balance_gating cexPrice cexFetchGood cexLive cexDB [5] 50 100).1 (by decide)

/-- Claim C9, counterexample: for a token without an oracle whose price the
protocol's own price-observation query knows (7 USD) while the secondary
AMM's day-price data does not, the code's historical resolver returns 0 —
the protocol's own price query is never consulted on the timestamped path —
whereas the claimed three-stage chain returns 7; moreover, in the chain that
does consult the protocol's own price query (the balances path), that
non-oracle stage's remote failure propagates instead of being caught. -/
theorem C9_counterexample :
    get_token_price_at_timestamp_zero_if_error cexOracle cexUniPrices cexToken 50 =
      .ok 0 ∧
    claimPriceResolverC9 cexOracle cexBalPrices cexUniPrices cexToken 50 = .ok 7 ∧
    get_unknown_token_to_prices_graph (fun _ => .error ()) (fun _ => .ok (fun _ => none))
      true [42] = .error () :=
  ⟨rfl, rfl, rfl⟩

/-- Claim C9 (corrected): the historical lookup
`_get_token_price_at_timestamp_zero_if_error` has only two stages: for a
token with an oracle it delegates to the oracle lookup with default zero
(so an oracle remote failure propagates); for a token without an oracle it
consults only the secondary AMM's (Uniswap) daily-price observation, whose
remote failure is caught and treated as no price, and it never raises —
exhaustion yields a zero price. The protocol's own price-observation query
participates only in the live-balances chain
(`_get_unknown_token_to_prices_graph`), where its remote failure propagates
(only the secondary-AMM stage is caught there) and every token left without
a price is reported in the user-visible warning list. -/
theorem C9_price_resolution
    (oracle : TokenAddr → Timestamp → Except Unit (Option Rat))
    (uniswapDayPrices : TokenAddr → Timestamp → Except Unit (TokenAddr → Option Rat))
    (balancerPrices uniswapPrices : List TokenAddr → Except Unit (TokenAddr → Option Rat))
    (uniswapAvailable : Bool) (token : PriceToken) (ts : Timestamp)
    (unknownTokens : List TokenAddr) :
    (token.hasOracle = true →
      get_token_price_at_timestamp_zero_if_error oracle uniswapDayPrices token ts =
        query_usd_price_or_use_default oracle token.address ts 0)
  ∧ (token.hasOracle = true → oracle token.address ts = .error () →
      get_token_price_at_timestamp_zero_if_error oracle uniswapDayPrices token ts =
        .error ())
  ∧ (token.hasOracle = false →
      get_token_price_at_timestamp_zero_if_error oracle uniswapDayPrices token ts =
        .ok (match uniswapDayPrices token.address ts with
             | .error _ => 0
             | .ok m => (m token.address).getD 0))
  ∧ (token.hasOracle = false →
      ∃ p, get_token_price_at_timestamp_zero_if_error oracle uniswapDayPrices token ts =
        .ok p)
  ∧ (∀ e, balancerPrices unknownTokens = .error e →
      get_unknown_token_to_prices_graph balancerPrices uniswapPrices uniswapAvailable
        unknownTokens = .error e)
  ∧ (∀ m w, get_unknown_token_to_prices_graph balancerPrices uniswapPrices uniswapAvailable
        unknownTokens = .ok (m, w) →
      ∀ t ∈ unknownTokens, m t = none → t ∈ w) := by
  have hNoOracle : token.hasOracle = false →
      get_token_price_at_timestamp_zero_if_error oracle uniswapDayPrices token ts =
        .ok (match uniswapDayPrices token.address ts with
             | .error _ => 0
             | .ok m => (m token.address).getD 0) := by
    intro h
    have hny : ¬(token.hasOracle = true) := by
      rw [h]
      exact Bool.noConfusion
    simp only [get_token_price_at_timestamp_zero_if_error, if_neg hny]
    cases hu : uniswapDayPrices token.address ts with
    | error e => rfl
    | ok m => rfl
  refine ⟨?_, ?_, hNoOracle, ?_, ?_, ?_⟩
  · intro h
    simp only [get_token_price_at_timestamp_zero_if_error, if_pos h]
  · intro h he
    simp only [get_token_price_at_timestamp_zero_if_error, if_pos h,
      query_usd_price_or_use_default, he]
  · intro h
    exact ⟨_, hNoOracle h⟩
  · intro e he
    simp only [get_unknown_token_to_prices_graph, he]
  · intro m w hok t ht hmt
    cases hbal : balancerPrices unknownTokens with
    | error e =>
      simp only [get_unknown_token_to_prices_graph, hbal] at hok
      exact Except.noConfusion hok
    | ok bal =>
      simp only [get_unknown_token_to_prices_graph, hbal] at hok
      have hpair := Except.ok.inj hok
      injection hpair with hm hw
      rw [← hw]
      refine List.mem_filter.mpr ⟨ht, ?_⟩
      rw [hm, hmt]
      rfl

/-- Claim C9, witness: the corrected price-resolution theorem applied at a
concrete oracle-less token with empty price sources. -/
theorem C9_witness :
    ((cexToken.hasOracle = true →
      get_token_price_at_timestamp_zero_if_error cexOracle cexUniPrices cexToken 50 =
        query_usd_price_or_use_default cexOracle cexToken.address 50 0)
  ∧ (cexToken.hasOracle = true → cexOracle cexToken.address 50 = .error () →
      get_token_price_at_timestamp_zero_if_error cexOracle cexUniPrices cexToken 50 =
        .error ())
  ∧ (cexToken.hasOracle = false →
      get_token_price_at_timestamp_zero_if_error cexOracle cexUniPrices cexToken 50 =
        .ok (match cexUniPrices cexToken.address 50 with
             | .error _ => 0
             | .ok m => (m cexToken.address).getD 0))
  ∧ (cexToken.hasOracle = false →
      ∃ p, get_token_price_at_timestamp_zero_if_error cexOracle cexUniPrices cexToken 50 =
        .ok p)
  ∧ (∀ e, (fun _ : List TokenAddr => (Except.ok (fun _ : TokenAddr => (none : Option Rat)) :
        Except Unit (TokenAddr → Option Rat))) [42] = .error e →
      get_unknown_token_to_prices_graph
        (fun _ => .ok (fun _ => none)) (fun _ => .ok (fun _ => none)) true [42] = .error e)
  ∧ (∀ m w, get_unknown_token_to_prices_graph
        (fun _ => .ok (fun _ => none)) (fun _ => .ok (fun _ => none)) true [42] = .ok (m, w) →
      ∀ t ∈ [42], m t = none → t ∈ w)) :=
  C9_price_resolution cexOracle cexUniPrices
    (fun _ => .ok (fun _ => none)) (fun _ => .ok (fun _ => none)) true cexToken 50 [42]

end BalancerSpec
